import Mathlib

/-!
Verification of the uninformed search engine (`search.py`) and the sliding
puzzle collaborator (`slidingpuzzle.py`).

Modelling conventions:
* Python machine integers are modelled by `Nat` (all counters and step costs in
  the source are non-negative integers; the sliding puzzle's misplaced counter,
  which is transiently decremented, is modelled by `Int` to mirror Python's
  exact integer arithmetic).
* The total cost returned by a search is a `ℕ∞` (`WithTop Nat`); the value `⊤`
  models the sentinel `float("inf")`.
* The Python `while` loops are modelled by a step function on an explicit
  configuration record plus a fuel-indexed runner; `none` means the fuel ran
  out before the loop finished.
* Fallible Python code (raising `ValueError` / `IndexError`) returns `Option`.
* The dictionaries `visited` and `inFringe` are only ever used through
  membership tests on their keys; `visited` is modelled as the list of its
  keys.  `inFringe` is written but never read in the source (the only read is
  commented out), so it is not part of the model.
-/

namespace UniformedSearch

/-- A successor record as produced by `problem.getSuccessors`:
`(state, action to get there, cost to get there, goal or not)`. -/
abbrev Succ (σ α : Type) := σ × α × Nat × Bool

/-- The caller-supplied problem object (spec section 6): a current state plus
the capabilities `getState`, `setState`, `isSolved` and `getSuccessors`.
`isSolved` reports on the current state, so it is modelled as a predicate
`solvedFn` applied to `cur`; `getSuccessors` takes an explicit state argument
and leaves the current state unchanged (claim C10), so it is modelled as the
pure function `succs`. -/
structure Problem (σ α : Type) where
  cur : σ
  solvedFn : σ → Bool
  succs : σ → List (Succ σ α)

def Problem.getState (P : Problem σ α) : σ := P.cur

def Problem.setState (P : Problem σ α) (s : σ) : Problem σ α := { P with cur := s }

def Problem.isSolved (P : Problem σ α) : Bool := P.solvedFn P.cur

def Problem.getSuccessors (P : Problem σ α) (s : σ) : List (Succ σ α) := P.succs s

/-- A fringe node of the unbounded searches:
`s = (state, path, cost, solved or not)`. -/
structure SNode (σ α : Type) where
  state : σ
  path : List α
  cost : Nat
  goal : Bool
deriving DecidableEq, Repr

/-- A fringe node of `depthLimitedSearch`, which carries a depth tag:
`(state, path, cost, solved or not, depth)`. -/
structure DNode (σ α : Type) where
  state : σ
  path : List α
  cost : Nat
  goal : Bool
  depth : Nat
deriving DecidableEq, Repr

/-- The triple returned by every entry point:
(action sequence, total cost, expansion count). -/
abbrev SearchResult (α : Type) := List α × ℕ∞ × Nat

/-- A search outcome paired with the final values of the two module-level
metrics counters `maxMemoryUse` and `totalStates`. -/
abbrev SearchOutput (α : Type) := SearchResult α × Nat × Nat

/-! ## Priority queue

The source's `PriorityQueue` delegates to Python's `heapq` library, which is
not part of this repository. -/

/-- Modelled from the spec: Python's `heapq.heappush` (library code, not in
this repository) inserts a `(priority, item)` pair into the heap list; only
the multiset of stored pairs is observable through `heappop`. -/
def heappush (heap : List (Nat × β)) (pair : Nat × β) : List (Nat × β) :=
  heap ++ [pair]

/-- Modelled from the spec: Python's `heapq.heappop` (library code, not in
this repository) removes and returns the smallest stored pair, comparing
priorities first; per spec section 4.1, tie-breaking between equal priorities
is unspecified by design, and this model takes the earliest inserted pair.
Popping an empty heap raises `IndexError`, modelled by `none`. -/
def heappop : List (Nat × β) → Option ((Nat × β) × List (Nat × β))
  | [] => none
  | x :: xs =>
    match heappop xs with
    | none => some (x, [])
    | some (y, ys) => if x.1 ≤ y.1 then some (x, xs) else some (y, x :: ys)

/-- `PriorityQueue`: each item is associated with a priority; the queue gives
access to the minimum priority item.  The private `__heap` list is the
`heap` field. -/
structure PriorityQueue (β : Type) where
  heap : List (Nat × β)
deriving DecidableEq, Repr

def PriorityQueue.empty : PriorityQueue β := ⟨[]⟩

def PriorityQueue.push (q : PriorityQueue β) (item : β) (priority : Nat) :
    PriorityQueue β :=
  ⟨heappush q.heap (priority, item)⟩

def PriorityQueue.pop (q : PriorityQueue β) :
    Option ((β × Nat) × PriorityQueue β) :=
  (heappop q.heap).map fun pr => ((pr.1.2, pr.1.1), ⟨pr.2⟩)

def PriorityQueue.isEmpty (q : PriorityQueue β) : Bool :=
  q.heap.length == 0

def PriorityQueue.getSize (q : PriorityQueue β) : Nat :=
  q.heap.length

/-! ## A* search -/

variable {σ α : Type}

/-- The successor loop of `aStarSearch`: for each successor whose state is not
in `visited`, push the extended node with priority
`s[2] + succ[2] + heuristic.eval(succ[0])`. -/
def aPushLoop [DecidableEq σ] (visited : List σ) (s : SNode σ α) (H : σ → Nat) :
    List (Succ σ α) → PriorityQueue (SNode σ α) → PriorityQueue (SNode σ α)
  | [], q => q
  | succ :: rest, q =>
    if succ.1 ∈ visited then
      aPushLoop visited s H rest q
    else
      aPushLoop visited s H rest
        (q.push ⟨succ.1, s.path ++ [succ.2.1], s.cost + succ.2.2.1, succ.2.2.2⟩
          (s.cost + succ.2.2.1 + H succ.1))

/-- Loop state of `aStarSearch`. -/
structure AstarConfig (σ α : Type) where
  fringe : PriorityQueue (SNode σ α)
  visited : List σ
  numExpanded : Nat
  maxMemoryUse : Nat
  totalStates : Nat
deriving DecidableEq, Repr

/-- One iteration of the `aStarSearch` main loop: test the `while` guard, pop
the minimum-priority node, return on its goal flag, otherwise expand it if
unvisited. -/
def aStarStep [DecidableEq σ] (P : Problem σ α) (H : σ → Nat)
    (c : AstarConfig σ α) : SearchOutput α ⊕ AstarConfig σ α :=
  match c.fringe.pop with
  | none => Sum.inl (([], ⊤, c.numExpanded), c.maxMemoryUse, c.totalStates)
  | some ((s, _score), fringe') =>
    if s.goal then
      Sum.inl ((s.path, (s.cost : ℕ∞), c.numExpanded), c.maxMemoryUse, c.totalStates)
    else if s.state ∈ c.visited then
      Sum.inr { c with fringe := fringe' }
    else
      let numExpanded' := c.numExpanded + 1
      let visited' := s.state :: c.visited
      let fringe'' := aPushLoop visited' s H (P.getSuccessors s.state) fringe'
      let maxMem' :=
        if fringe''.getSize > c.maxMemoryUse then fringe''.getSize else c.maxMemoryUse
      Sum.inr ⟨fringe'', visited', numExpanded', maxMem', numExpanded'⟩

/-- The `aStarSearch` main loop with fuel. -/
def aStarRun [DecidableEq σ] (P : Problem σ α) (H : σ → Nat) :
    Nat → AstarConfig σ α → Option (SearchOutput α)
  | 0, _ => none
  | fuel + 1, c =>
    match aStarStep P H c with
    | Sum.inl r => some r
    | Sum.inr c' => aStarRun P H fuel c'

/-- The initial loop state of `aStarSearch`: the fringe holds the seed node
at priority `heuristic.eval(startState)` and all counters are `0`. -/
def aStarInit (P : Problem σ α) (H : σ → Nat) : AstarConfig σ α :=
  ⟨PriorityQueue.empty.push ⟨P.getState, [], 0, P.isSolved⟩ (H P.getState),
    [], 0, 0, 0⟩

/-- `aStarSearch(problem, heuristic)`: resets both metrics counters, seeds the
fringe with the current state at priority `heuristic.eval(startState)`, and
runs the main loop. -/
def aStarSearch [DecidableEq σ] (P : Problem σ α) (H : σ → Nat) (fuel : Nat) :
    Option (SearchOutput α) :=
  aStarRun P H fuel (aStarInit P H)

/-! ## Breadth-first and depth-first search -/

/-- The successor loop shared by `breadthSearch`, `depthSearch` (and, with
depth tags, `depthLimitedSearch`): append each unvisited successor to the
fringe and update `maxMemoryUse` after each insertion. -/
def pushLoop [DecidableEq σ] (visited : List σ) (s : SNode σ α) :
    List (Succ σ α) → List (SNode σ α) → Nat → List (SNode σ α) × Nat
  | [], fringe, maxMem => (fringe, maxMem)
  | succ :: rest, fringe, maxMem =>
    if succ.1 ∈ visited then
      pushLoop visited s rest fringe maxMem
    else
      let fringe' := fringe ++
        [⟨succ.1, s.path ++ [succ.2.1], s.cost + succ.2.2.1, succ.2.2.2⟩]
      let maxMem' := if fringe'.length > maxMem then fringe'.length else maxMem
      pushLoop visited s rest fringe' maxMem'

/-- Loop state of `breadthSearch` and `depthSearch`. -/
structure ListConfig (σ α : Type) where
  fringe : List (SNode σ α)
  visited : List σ
  numExpanded : Nat
  maxMemoryUse : Nat
  totalStates : Nat
deriving DecidableEq, Repr

/-- One iteration of the `breadthSearch` main loop: `fringe.pop(0)` removes
the front node (FIFO). -/
def bfsStep [DecidableEq σ] (P : Problem σ α) (c : ListConfig σ α) :
    SearchOutput α ⊕ ListConfig σ α :=
  match c.fringe with
  | [] => Sum.inl (([], ⊤, c.numExpanded), c.maxMemoryUse, c.totalStates)
  | s :: rest =>
    if s.goal then
      Sum.inl ((s.path, (s.cost : ℕ∞), c.numExpanded), c.maxMemoryUse, c.totalStates)
    else if s.state ∈ c.visited then
      Sum.inr { c with fringe := rest }
    else
      let numExpanded' := c.numExpanded + 1
      let visited' := s.state :: c.visited
      let fm := pushLoop visited' s (P.getSuccessors s.state) rest c.maxMemoryUse
      Sum.inr ⟨fm.1, visited', numExpanded', fm.2, numExpanded'⟩

/-- The `breadthSearch` main loop with fuel. -/
def bfsRun [DecidableEq σ] (P : Problem σ α) :
    Nat → ListConfig σ α → Option (SearchOutput α)
  | 0, _ => none
  | fuel + 1, c =>
    match bfsStep P c with
    | Sum.inl r => some r
    | Sum.inr c' => bfsRun P fuel c'

/-- The initial loop state shared by `breadthSearch` and `depthSearch`: the
fringe holds the seed node `(startState, [], 0, problem.isSolved())`, the
visited set is empty and all counters are `0`. -/
def listInit (P : Problem σ α) : ListConfig σ α :=
  ⟨[⟨P.getState, [], 0, P.isSolved⟩], [], 0, 0, 0⟩

/-- `breadthSearch(problem)`: resets both metrics counters, seeds the fringe
with the current state and runs the FIFO main loop. -/
def breadthSearch [DecidableEq σ] (P : Problem σ α) (fuel : Nat) :
    Option (SearchOutput α) :=
  bfsRun P fuel (listInit P)

/-- One iteration of the `depthSearch` main loop: `fringe.pop()` removes the
back node (LIFO). -/
def dfsStep [DecidableEq σ] (P : Problem σ α) (c : ListConfig σ α) :
    SearchOutput α ⊕ ListConfig σ α :=
  match c.fringe.getLast? with
  | none => Sum.inl (([], ⊤, c.numExpanded), c.maxMemoryUse, c.totalStates)
  | some s =>
    let rest := c.fringe.dropLast
    if s.goal then
      Sum.inl ((s.path, (s.cost : ℕ∞), c.numExpanded), c.maxMemoryUse, c.totalStates)
    else if s.state ∈ c.visited then
      Sum.inr { c with fringe := rest }
    else
      let numExpanded' := c.numExpanded + 1
      let visited' := s.state :: c.visited
      let fm := pushLoop visited' s (P.getSuccessors s.state) rest c.maxMemoryUse
      Sum.inr ⟨fm.1, visited', numExpanded', fm.2, numExpanded'⟩

/-- The `depthSearch` main loop with fuel. -/
def dfsRun [DecidableEq σ] (P : Problem σ α) :
    Nat → ListConfig σ α → Option (SearchOutput α)
  | 0, _ => none
  | fuel + 1, c =>
    match dfsStep P c with
    | Sum.inl r => some r
    | Sum.inr c' => dfsRun P fuel c'

/-- `depthSearch(problem)`: resets both metrics counters, seeds the fringe
with the current state and runs the LIFO main loop. -/
def depthSearch [DecidableEq σ] (P : Problem σ α) (fuel : Nat) :
    Option (SearchOutput α) :=
  dfsRun P fuel (listInit P)

/-! ## Depth-limited and iterative-deepening search -/

/-- The successor loop of `depthLimitedSearch`: like `pushLoop` but tagging
each pushed node with depth `s[4] + 1`. -/
def dlsPushLoop [DecidableEq σ] (visited : List σ) (s : DNode σ α) :
    List (Succ σ α) → List (DNode σ α) → Nat → List (DNode σ α) × Nat
  | [], fringe, maxMem => (fringe, maxMem)
  | succ :: rest, fringe, maxMem =>
    if succ.1 ∈ visited then
      dlsPushLoop visited s rest fringe maxMem
    else
      let fringe' := fringe ++
        [⟨succ.1, s.path ++ [succ.2.1], s.cost + succ.2.2.1, succ.2.2.2, s.depth + 1⟩]
      let maxMem' := if fringe'.length > maxMem then fringe'.length else maxMem
      dlsPushLoop visited s rest fringe' maxMem'

/-- Loop state of `depthLimitedSearch`. -/
structure DlsConfig (σ α : Type) where
  fringe : List (DNode σ α)
  visited : List σ
  numExpanded : Nat
  maxMemoryUse : Nat
  totalStates : Nat
deriving DecidableEq, Repr

/-- One iteration of the `depthLimitedSearch` main loop: LIFO pop; a node is
expanded only if its state is unvisited and its depth is below `maxDepth`;
here `totalStates` is incremented rather than overwritten. -/
def dlsStep [DecidableEq σ] (P : Problem σ α) (maxDepth : Nat)
    (c : DlsConfig σ α) : SearchOutput α ⊕ DlsConfig σ α :=
  match c.fringe.getLast? with
  | none => Sum.inl (([], ⊤, c.numExpanded), c.maxMemoryUse, c.totalStates)
  | some s =>
    let rest := c.fringe.dropLast
    if s.goal then
      Sum.inl ((s.path, (s.cost : ℕ∞), c.numExpanded), c.maxMemoryUse, c.totalStates)
    else if s.state ∉ c.visited ∧ s.depth < maxDepth then
      let numExpanded' := c.numExpanded + 1
      let totalStates' := c.totalStates + 1
      let visited' := s.state :: c.visited
      let fm := dlsPushLoop visited' s (P.getSuccessors s.state) rest c.maxMemoryUse
      Sum.inr ⟨fm.1, visited', numExpanded', fm.2, totalStates'⟩
    else
      Sum.inr { c with fringe := rest }

/-- The `depthLimitedSearch` main loop with fuel. -/
def dlsRun [DecidableEq σ] (P : Problem σ α) (maxDepth : Nat) :
    Nat → DlsConfig σ α → Option (SearchOutput α)
  | 0, _ => none
  | fuel + 1, c =>
    match dlsStep P maxDepth c with
    | Sum.inl r => some r
    | Sum.inr c' => dlsRun P maxDepth fuel c'

/-- `depthLimitedSearch(problem, maxDepth, reset)`: resets the two metrics
counters only when `reset` is true (their incoming values are the arguments
`m0` and `t0`), seeds the fringe with the current state at depth `0` and runs
the depth-bounded LIFO main loop. -/
def dlsInit (P : Problem σ α) (m t : Nat) : DlsConfig σ α :=
  ⟨[⟨P.getState, [], 0, P.isSolved, 0⟩], [], 0, m, t⟩

def depthLimitedSearch [DecidableEq σ] (P : Problem σ α) (maxDepth : Nat)
    (fuel : Nat) (reset : Bool) (m0 t0 : Nat) : Option (SearchOutput α) :=
  let m := if reset then 0 else m0
  let t := if reset then 0 else t0
  dlsRun P maxDepth fuel (dlsInit P m t)

/-- The `while depth <= maxDepth` loop of `iterativeDeepening`, counted down
by the number of remaining iterations: before each iteration the problem is
rewound to the saved initial `state`, then `depthLimitedSearch` runs with
`reset = False`; inner expansion counts are accumulated and a non-empty path
is returned at once. -/
def idLoop [DecidableEq σ] (P : Problem σ α) (state : σ) (fuel : Nat) :
    (depthsLeft : Nat) → (depth numExpanded m t : Nat) → Option (SearchOutput α)
  | 0, _, numExpanded, m, t => some (([], ⊤, numExpanded), m, t)
  | depthsLeft + 1, depth, numExpanded, m, t =>
    match depthLimitedSearch (P.setState state) depth fuel false m t with
    | none => none
    | some ((path, cost, expanded), m', t') =>
      if path.length > 0 then
        some ((path, cost, numExpanded + expanded), m', t')
      else
        idLoop P state fuel depthsLeft (depth + 1) (numExpanded + expanded) m' t'

/-- `iterativeDeepening(problem, maxDepth)`: resets both metrics counters once
at the top, saves the current state, and runs depth-limited searches with
limits `1, 2, ..., maxDepth`. -/
def iterativeDeepening [DecidableEq σ] (P : Problem σ α) (maxDepth : Nat)
    (fuel : Nat) : Option (SearchOutput α) :=
  idLoop P P.getState fuel maxDepth 1 0 0 0

/-! ## Priority queue lemmas (claim C9) -/

theorem heappop_cons_isSome (x : Nat × β) (xs : List (Nat × β)) :
    (heappop (x :: xs)).isSome = true := by
  rw [heappop]
  cases heappop xs with
  | none => simp
  | some pr =>
    obtain ⟨y, ys⟩ := pr
    show (if x.1 ≤ y.1 then some (x, xs) else some (y, x :: ys)).isSome = true
    split <;> simp

theorem heappop_eq_none {l : List (Nat × β)} : heappop l = none ↔ l = [] := by
  cases l with
  | nil => simp [heappop]
  | cons x xs =>
    constructor
    · intro h
      have := heappop_cons_isSome x xs
      rw [h] at this
      simp at this
    · intro h; exact absurd h (by simp)

theorem heappop_min {l : List (Nat × β)} {p : Nat × β} {rest : List (Nat × β)}
    (h : heappop l = some (p, rest)) :
    p ∈ l ∧ (∀ x ∈ l, p.1 ≤ x.1) ∧ l.Perm (p :: rest) := by
  induction l generalizing p rest with
  | nil => simp [heappop] at h
  | cons x xs ih =>
    rw [heappop] at h
    cases hx : heappop xs with
    | none =>
      have hxs : xs = [] := heappop_eq_none.mp hx
      rw [hx] at h
      simp only [Option.some.injEq, Prod.mk.injEq] at h
      obtain ⟨hp, hr⟩ := h
      subst hp hr hxs
      refine ⟨by simp, ?_, by rfl⟩
      intro y hy
      simp only [List.mem_singleton] at hy
      subst hy
      exact le_refl _
    | some pr =>
      obtain ⟨y, ys⟩ := pr
      rw [hx] at h
      obtain ⟨hy_mem, hy_min, hy_perm⟩ := ih hx
      by_cases hle : x.1 ≤ y.1
      · simp only [if_pos hle, Option.some.injEq, Prod.mk.injEq] at h
        obtain ⟨hp, hr⟩ := h
        subst hp hr
        refine ⟨by simp, ?_, by rfl⟩
        intro z hz
        rcases List.mem_cons.mp hz with hz | hz
        · subst hz; exact le_refl _
        · exact le_trans hle (hy_min z hz)
      · simp only [if_neg hle, Option.some.injEq, Prod.mk.injEq] at h
        obtain ⟨hp, hr⟩ := h
        subst hp hr
        refine ⟨List.mem_cons_of_mem x hy_mem, ?_, ?_⟩
        · intro z hz
          rcases List.mem_cons.mp hz with hz | hz
          · subst hz; exact le_of_not_le hle
          · exact hy_min z hz
        · exact (hy_perm.cons x).trans (List.Perm.swap y x ys)

/-- C9: on a non-empty `PriorityQueue`, `pop` removes and returns an item
whose priority is numerically smallest among all items currently in the
queue, paired with that priority (the popped pair was stored, its priority is
a lower bound of all stored priorities, and the stored pairs are exactly the
popped pair plus the remaining ones); `pop` on an empty queue fails by
raising (modelled: returns `none`) rather than returning a value, and `pop`
on a non-empty queue does return a value; `isEmpty` returns true exactly when
`getSize` is `0`. -/
theorem priorityQueue_pop_spec (q : PriorityQueue β) :
    (∀ item priority q', q.pop = some ((item, priority), q') →
      (priority, item) ∈ q.heap ∧ (∀ x ∈ q.heap, priority ≤ x.1) ∧
        q.heap.Perm ((priority, item) :: q'.heap)) ∧
    (q.isEmpty = true → q.pop = none) ∧
    (q.isEmpty = false → q.pop.isSome) ∧
    (q.isEmpty = true ↔ q.getSize = 0) := by
  refine ⟨?_, ?_, ?_, ?_⟩
  · intro item priority q' hpop
    unfold PriorityQueue.pop at hpop
    cases hp : heappop q.heap with
    | none => rw [hp] at hpop; exact absurd hpop (by simp)
    | some pr =>
      rw [hp] at hpop
      obtain ⟨⟨pri, it⟩, rest⟩ := pr
      simp at hpop
      obtain ⟨⟨h1, h2⟩, h3⟩ := hpop
      subst h1 h2
      obtain ⟨hmem, hmin, hperm⟩ := heappop_min hp
      exact ⟨hmem, hmin, by rw [← h3]; exact hperm⟩
  · intro hempty
    unfold PriorityQueue.isEmpty at hempty
    have : q.heap = [] := List.eq_nil_of_length_eq_zero (by simpa using hempty)
    simp [PriorityQueue.pop, this, heappop]
  · intro hne
    unfold PriorityQueue.isEmpty at hne
    have : q.heap ≠ [] := by
      intro h; rw [h] at hne; simp at hne
    simp only [PriorityQueue.pop, Option.isSome_map]
    cases hq : q.heap with
    | nil => exact absurd hq this
    | cons x xs =>
      have : heappop (x :: xs) = none ↔ x :: xs = [] := heappop_eq_none
      cases hp : heappop (x :: xs) with
      | none => simp [hp] at this
      | some pr => simp
  · unfold PriorityQueue.isEmpty PriorityQueue.getSize
    simp

def pqExample : PriorityQueue Nat := (PriorityQueue.empty.push 10 5).push 20 3

theorem priorityQueue_pop_spec_witness :
    ((3, 20) ∈ pqExample.heap ∧ (∀ x ∈ pqExample.heap, 3 ≤ x.1) ∧
      pqExample.heap.Perm ((3, 20) :: [(5, 10)])) ∧
    (pqExample.isEmpty = false → pqExample.pop.isSome) :=
  ⟨(priorityQueue_pop_spec pqExample).1 20 3 ⟨[(5, 10)]⟩ (by decide),
    (priorityQueue_pop_spec pqExample).2.2.1⟩

/-! ## Behavior on an already-solved start state (claim C2) -/

theorem dls_solved_start [DecidableEq σ] (P : Problem σ α) (h : P.isSolved = true)
    {fuel : Nat} (hf : 0 < fuel) (maxDepth : Nat) (m t : Nat) :
    depthLimitedSearch P maxDepth fuel false m t = some (([], 0, 0), m, t) := by
  obtain ⟨f, rfl⟩ : ∃ f, fuel = f + 1 := ⟨fuel - 1, by omega⟩
  have h' : P.solvedFn P.cur = true := h
  simp [depthLimitedSearch, dlsInit, dlsRun, dlsStep, Problem.getState, h, h']

theorem idLoop_solved [DecidableEq σ] (P : Problem σ α) (state : σ)
    (h : P.solvedFn state = true) {fuel : Nat} (hf : 0 < fuel) :
    ∀ dl depth acc m t, idLoop P state fuel dl depth acc m t = some (([], ⊤, acc), m, t) := by
  intro dl
  induction dl with
  | zero => intro depth acc m t; rfl
  | succ dl ih =>
    intro depth acc m t
    have hds : (P.setState state).isSolved = true := by
      simpa [Problem.setState, Problem.isSolved] using h
    rw [idLoop, dls_solved_start (P.setState state) hds hf]
    simpa using ih (depth + 1) (acc + 0) m t

/-- C2 (amended): when the problem's current state is already solved at entry,
`breadthSearch`, `depthSearch`, `depthLimitedSearch` and `aStarSearch` return
an empty action sequence, total cost `0` and expansion count `0` (the seed
node carries the solved status and is returned on removal), while
`iterativeDeepening` instead returns the failure result: an empty action
sequence with the infinite-cost sentinel and expansion count `0`, because its
success test requires a non-empty inner path. -/
theorem solved_start_returns [DecidableEq σ] (P : Problem σ α)
    (h : P.isSolved = true) (fuel maxDepth : Nat) (hf : 0 < fuel)
    (m0 t0 : Nat) (H : σ → Nat) :
    breadthSearch P fuel = some (([], 0, 0), 0, 0) ∧
    depthSearch P fuel = some (([], 0, 0), 0, 0) ∧
    depthLimitedSearch P maxDepth fuel true m0 t0 = some (([], 0, 0), 0, 0) ∧
    aStarSearch P H fuel = some (([], 0, 0), 0, 0) ∧
    iterativeDeepening P maxDepth fuel = some (([], ⊤, 0), 0, 0) := by
  obtain ⟨f, rfl⟩ : ∃ f, fuel = f + 1 := ⟨fuel - 1, by omega⟩
  refine ⟨?_, ?_, ?_, ?_, ?_⟩
  · simp [breadthSearch, listInit, bfsRun, bfsStep, Problem.getState, h]
  · simp [depthSearch, listInit, dfsRun, dfsStep, Problem.getState, h]
  · simp [depthLimitedSearch, dlsInit, dlsRun, dlsStep, Problem.getState, h]
  · simp [aStarSearch, aStarInit, aStarRun, aStarStep, PriorityQueue.pop, PriorityQueue.push,
      PriorityQueue.empty, heappush, heappop, Problem.getState, h]
  · exact idLoop_solved P P.getState h hf maxDepth 1 0 0 0

/-- A one-state problem whose single state is already solved. -/
def soloSolved : Problem Nat Nat := ⟨0, fun _ => true, fun _ => []⟩

/-- C2 counterexample: on a problem that is already solved when the entry
point is invoked, `iterativeDeepening` does not return total cost `0`: it
returns the infinite-cost sentinel (an empty path is treated as an inner
failure), contradicting the claim for the `iterativeDeepening` entry point. -/
theorem iterativeDeepening_solved_start_counterexample :
    iterativeDeepening soloSolved 3 1 = some (([], ⊤, 0), 0, 0) ∧
    iterativeDeepening soloSolved 3 1 ≠ some (([], 0, 0), 0, 0) := by
  constructor
  · decide
  · decide

theorem solved_start_returns_witness :
    breadthSearch soloSolved 1 = some (([], 0, 0), 0, 0) ∧
    depthSearch soloSolved 1 = some (([], 0, 0), 0, 0) ∧
    depthLimitedSearch soloSolved 2 1 true 0 0 = some (([], 0, 0), 0, 0) ∧
    aStarSearch soloSolved (fun _ => 0) 1 = some (([], 0, 0), 0, 0) ∧
    iterativeDeepening soloSolved 2 1 = some (([], ⊤, 0), 0, 0) :=
  solved_start_returns soloSolved (by decide) 1 2 (by decide) 0 0 (fun _ => 0)

/-! ## Characterization of iterative deepening (claim C5) -/

/-- The iteration scheme of `iterativeDeepening` as the spec describes it: one
depth-limited probe per limit in the given list, each starting from the
problem rewound (via `setState`) to the saved initial state, run with
`reset = False` so the two metrics counters thread through unchanged from
iteration to iteration, accumulating the inner expansion counts, returning
the first non-empty path and the failure triple if the list is exhausted. -/
def idSpecGo [DecidableEq σ] (P : Problem σ α) (state : σ) (fuel : Nat) :
    List Nat → Nat → Nat → Nat → Option (SearchOutput α)
  | [], acc, m, t => some (([], ⊤, acc), m, t)
  | d :: ds, acc, m, t =>
    match depthLimitedSearch (P.setState state) d fuel false m t with
    | none => none
    | some (([], _cost, expanded), m', t') =>
      idSpecGo P state fuel ds (acc + expanded) m' t'
    | some ((a :: as, cost, expanded), m', t') =>
      some ((a :: as, cost, acc + expanded), m', t')

/-- The spec-level description of `iterativeDeepening`: metrics counters
start from `0` exactly once at the top, and the depth limits are
`1, 2, ..., maxDepth` in increasing order. -/
def iterativeDeepeningSpec [DecidableEq σ] (P : Problem σ α)
    (maxDepth fuel : Nat) : Option (SearchOutput α) :=
  idSpecGo P P.getState fuel (List.range' 1 maxDepth) 0 0 0

theorem idLoop_eq_idSpecGo [DecidableEq σ] (P : Problem σ α) (state : σ)
    (fuel : Nat) :
    ∀ dl depth acc m t,
      idLoop P state fuel dl depth acc m t =
        idSpecGo P state fuel (List.range' depth dl) acc m t := by
  intro dl
  induction dl with
  | zero => intro depth acc m t; rfl
  | succ dl ih =>
    intro depth acc m t
    rw [idLoop, List.range', idSpecGo]
    cases hdls : depthLimitedSearch (P.setState state) depth fuel false m t with
    | none => rfl
    | some r =>
      obtain ⟨⟨path, cost, expanded⟩, m', t'⟩ := r
      cases path with
      | nil => simpa using ih (depth + 1) (acc + expanded) m' t'
      | cons a as => simp

/-- C5: `iterativeDeepening(problem, maxDepth)` coincides with the spec-level
scheme `iterativeDeepeningSpec`: it runs depth-limited searches with limits
`1, 2, ..., maxDepth` in increasing order, rewinds the problem to the saved
initial state via `setState` before every iteration, sums the inner expansion
counts into the count it returns, resets the two metrics counters exactly
once at the top (each inner call runs with `reset = False` and threads the
counters of the previous iterations, so they reflect the full
multi-iteration effort), and returns the failure triple if no iteration up
to `maxDepth` yields a non-empty path. -/
theorem iterativeDeepening_eq_spec [DecidableEq σ] (P : Problem σ α)
    (maxDepth fuel : Nat) :
    iterativeDeepening P maxDepth fuel = iterativeDeepeningSpec P maxDepth fuel :=
  idLoop_eq_idSpecGo P P.getState fuel maxDepth 1 0 0 0

/-! ## Reachability in the successor graph -/

/-- `ReachN succs k s t`: `t` is reachable from `s` in exactly `k` successor
steps. -/
def ReachN (succs : σ → List (Succ σ α)) : Nat → σ → σ → Prop
  | 0, s, t => s = t
  | k + 1, s, t => ∃ x ∈ succs s, ReachN succs k x.1 t

instance ReachN.instDecidable [DecidableEq σ] (succs : σ → List (Succ σ α)) :
    ∀ (k : Nat) (s t : σ), Decidable (ReachN succs k s t)
  | 0, s, t => inferInstanceAs (Decidable (s = t))
  | k + 1, s, t =>
    haveI : ∀ x : Succ σ α, Decidable (ReachN succs k x.1 t) := fun x =>
      ReachN.instDecidable succs k x.1 t
    inferInstanceAs (Decidable (∃ x ∈ succs s, ReachN succs k x.1 t))

theorem ReachN.zero (succs : σ → List (Succ σ α)) (s : σ) :
    ReachN succs 0 s s := rfl

theorem ReachN.snoc {succs : σ → List (Succ σ α)} {k : Nat} {s t : σ}
    (h : ReachN succs k s t) {x : Succ σ α} (hx : x ∈ succs t) :
    ReachN succs (k + 1) s x.1 := by
  induction k generalizing s with
  | zero =>
    cases h
    exact ⟨x, hx, rfl⟩
  | succ k ih =>
    obtain ⟨y, hy, hr⟩ := h
    exact ⟨y, hy, ih hr⟩

theorem ReachN.trans {succs : σ → List (Succ σ α)} {j k : Nat} {s t u : σ}
    (h₁ : ReachN succs j s t) (h₂ : ReachN succs k t u) :
    ReachN succs (j + k) s u := by
  induction j generalizing s with
  | zero => cases h₁; simpa using h₂
  | succ j ih =>
    obtain ⟨x, hx, hr⟩ := h₁
    rw [Nat.add_right_comm]
    exact ⟨x, hx, ih hr⟩

theorem ReachN_zero_iff (succs : σ → List (Succ σ α)) (s t : σ) :
    ReachN succs 0 s t ↔ s = t := Iff.rfl

theorem ReachN_succ_iff (succs : σ → List (Succ σ α)) (k : Nat) (s t : σ) :
    ReachN succs (k + 1) s t ↔ ∃ x ∈ succs s, ReachN succs k x.1 t := Iff.rfl

theorem head?_mem {l : List γ} {h : γ} (hh : l.head? = some h) : h ∈ l := by
  cases l with
  | nil => exact absurd hh (by simp)
  | cons a l =>
    obtain rfl : a = h := by simpa using hh
    exact List.mem_cons_self a l

/-! ## Shape of the successor-push loops -/

theorem pushLoop_fst_eq [DecidableEq σ] (visited : List σ) (s : SNode σ α) :
    ∀ (l : List (Succ σ α)) (fringe : List (SNode σ α)) (maxMem : Nat),
      (pushLoop visited s l fringe maxMem).1 =
        fringe ++ (l.filter (fun x => decide (x.1 ∉ visited))).map
          (fun x => ⟨x.1, s.path ++ [x.2.1], s.cost + x.2.2.1, x.2.2.2⟩) := by
  intro l
  induction l with
  | nil => intro fringe maxMem; simp [pushLoop]
  | cons x rest ih =>
    intro fringe maxMem
    by_cases hx : x.1 ∈ visited
    · rw [pushLoop, if_pos hx, ih]
      simp [hx]
    · rw [pushLoop, if_neg hx, ih]
      simp [hx]

theorem dlsPushLoop_fst_eq [DecidableEq σ] (visited : List σ) (s : DNode σ α) :
    ∀ (l : List (Succ σ α)) (fringe : List (DNode σ α)) (maxMem : Nat),
      (dlsPushLoop visited s l fringe maxMem).1 =
        fringe ++ (l.filter (fun x => decide (x.1 ∉ visited))).map
          (fun x => ⟨x.1, s.path ++ [x.2.1], s.cost + x.2.2.1, x.2.2.2, s.depth + 1⟩) := by
  intro l
  induction l with
  | nil => intro fringe maxMem; simp [dlsPushLoop]
  | cons x rest ih =>
    intro fringe maxMem
    by_cases hx : x.1 ∈ visited
    · rw [dlsPushLoop, if_pos hx, ih]
      simp [hx]
    · rw [dlsPushLoop, if_neg hx, ih]
      simp [hx]

theorem aPushLoop_heap_eq [DecidableEq σ] (visited : List σ) (s : SNode σ α)
    (H : σ → Nat) :
    ∀ (l : List (Succ σ α)) (q : PriorityQueue (SNode σ α)),
      (aPushLoop visited s H l q).heap =
        q.heap ++ (l.filter (fun x => decide (x.1 ∉ visited))).map
          (fun x => (s.cost + x.2.2.1 + H x.1,
            ⟨x.1, s.path ++ [x.2.1], s.cost + x.2.2.1, x.2.2.2⟩)) := by
  intro l
  induction l with
  | nil => intro q; simp [aPushLoop]
  | cons x rest ih =>
    intro q
    by_cases hx : x.1 ∈ visited
    · rw [aPushLoop, if_pos hx, ih]
      simp [hx]
    · rw [aPushLoop, if_neg hx, ih]
      simp [hx, PriorityQueue.push, heappush]

/-! ## Step-indexed views of the main loops -/

/-- The first `n` iterations of the `breadthSearch` main loop, exposing the
intermediate loop state. -/
def bfsSteps [DecidableEq σ] (P : Problem σ α) :
    Nat → ListConfig σ α → SearchOutput α ⊕ ListConfig σ α
  | 0, c => Sum.inr c
  | n + 1, c =>
    match bfsStep P c with
    | Sum.inl r => Sum.inl r
    | Sum.inr c' => bfsSteps P n c'

/-- The first `n` iterations of the `depthSearch` main loop. -/
def dfsSteps [DecidableEq σ] (P : Problem σ α) :
    Nat → ListConfig σ α → SearchOutput α ⊕ ListConfig σ α
  | 0, c => Sum.inr c
  | n + 1, c =>
    match dfsStep P c with
    | Sum.inl r => Sum.inl r
    | Sum.inr c' => dfsSteps P n c'

/-- The first `n` iterations of the `depthLimitedSearch` main loop. -/
def dlsSteps [DecidableEq σ] (P : Problem σ α) (maxDepth : Nat) :
    Nat → DlsConfig σ α → SearchOutput α ⊕ DlsConfig σ α
  | 0, c => Sum.inr c
  | n + 1, c =>
    match dlsStep P maxDepth c with
    | Sum.inl r => Sum.inl r
    | Sum.inr c' => dlsSteps P maxDepth n c'

/-- The first `n` iterations of the `aStarSearch` main loop. -/
def aStarSteps [DecidableEq σ] (P : Problem σ α) (H : σ → Nat) :
    Nat → AstarConfig σ α → SearchOutput α ⊕ AstarConfig σ α
  | 0, c => Sum.inr c
  | n + 1, c =>
    match aStarStep P H c with
    | Sum.inl r => Sum.inl r
    | Sum.inr c' => aStarSteps P H n c'

/-! ## A* with an admissible but inconsistent heuristic (claim C1) -/

/-- A four-state problem: from state `0`, state `1` costs `2` and state `2`
costs `1`; from `2`, state `1` costs `0`; from `1`, the goal state `3` costs
`2`.  The cheapest goal path is `0 → 2 → 1 → 3` with total cost `3`; the
direct path `0 → 1 → 3` costs `4`.  Actions are labelled by the state they
lead to. -/
def fourStateProb : Problem Nat Nat where
  cur := 0
  solvedFn := fun _ => false
  succs := fun s =>
    if s = 0 then [(1, 1, 2, false), (2, 2, 1, false)]
    else if s = 1 then [(3, 3, 2, true)]
    else if s = 2 then [(1, 1, 0, false)]
    else []

/-- A non-negative heuristic for `fourStateProb` that is admissible (the true
remaining costs to the goal `3` are `3` from `0`, `2` from `1`, `2` from `2`
and `0` from `3`, and the estimates `0`, `0`, `2`, `0` never exceed them) but
inconsistent: across the zero-cost edge `2 → 1` the estimate drops from `2`
to `0`. -/
def fourStateH : Nat → Nat := fun s => if s = 2 then 2 else 0

/-- C1: evaluated at `fourStateProb` with the admissible heuristic
`fourStateH`, `aStarSearch` expands state `1` through the suboptimal direct
edge first, suppresses its later re-generation through the cheaper route
because state `1` is already in the visited set, and returns total cost `4`,
while `depthSearch` on the same problem returns the path `0 → 2 → 1 → 3` of
total cost `3`; the total cost returned by `aStarSearch` is therefore not
less than or equal to the one returned by `depthSearch`. -/
theorem aStar_admissible_exceeds_depthSearch :
    aStarSearch fourStateProb fourStateH 10 = some (([1, 3], 4, 3), 2, 3) ∧
    depthSearch fourStateProb 10 = some (([2, 1, 3], 3, 3), 2, 3) ∧
    ¬((4 : ℕ∞) ≤ (3 : ℕ∞)) := by
  refine ⟨by decide, by decide, by decide⟩

/-! ## A state is expanded at most once per call (claim C6) -/

theorem bfsStep_visited_inv [DecidableEq σ] {P : Problem σ α}
    {c c' : ListConfig σ α} (h : bfsStep P c = Sum.inr c')
    (hv : c.visited.Nodup ∧ c.numExpanded = c.visited.length) :
    c'.visited.Nodup ∧ c'.numExpanded = c'.visited.length := by
  unfold bfsStep at h
  split at h
  · exact absurd h (by simp)
  · split at h
    · exact absurd h (by simp)
    · split at h
      · obtain rfl : _ = c' := Sum.inr.inj h
        exact hv
      next hm =>
        obtain rfl : _ = c' := Sum.inr.inj h
        exact ⟨List.nodup_cons.mpr ⟨hm, hv.1⟩, by simp [hv.2]⟩

theorem dfsStep_visited_inv [DecidableEq σ] {P : Problem σ α}
    {c c' : ListConfig σ α} (h : dfsStep P c = Sum.inr c')
    (hv : c.visited.Nodup ∧ c.numExpanded = c.visited.length) :
    c'.visited.Nodup ∧ c'.numExpanded = c'.visited.length := by
  unfold dfsStep at h
  split at h
  · exact absurd h (by simp)
  · split at h
    · exact absurd h (by simp)
    · split at h
      · obtain rfl : _ = c' := Sum.inr.inj h
        exact hv
      next hm =>
        obtain rfl : _ = c' := Sum.inr.inj h
        exact ⟨List.nodup_cons.mpr ⟨hm, hv.1⟩, by simp [hv.2]⟩

theorem dlsStep_visited_inv [DecidableEq σ] {P : Problem σ α} {maxDepth : Nat}
    {c c' : DlsConfig σ α} (h : dlsStep P maxDepth c = Sum.inr c')
    (hv : c.visited.Nodup ∧ c.numExpanded = c.visited.length) :
    c'.visited.Nodup ∧ c'.numExpanded = c'.visited.length := by
  unfold dlsStep at h
  split at h
  · exact absurd h (by simp)
  · split at h
    · exact absurd h (by simp)
    · split at h
      next hm =>
        obtain rfl : _ = c' := Sum.inr.inj h
        exact ⟨List.nodup_cons.mpr ⟨hm.1, hv.1⟩, by simp [hv.2]⟩
      · obtain rfl : _ = c' := Sum.inr.inj h
        exact hv

theorem aStarStep_visited_inv [DecidableEq σ] {P : Problem σ α} {H : σ → Nat}
    {c c' : AstarConfig σ α} (h : aStarStep P H c = Sum.inr c')
    (hv : c.visited.Nodup ∧ c.numExpanded = c.visited.length) :
    c'.visited.Nodup ∧ c'.numExpanded = c'.visited.length := by
  unfold aStarStep at h
  split at h
  · exact absurd h (by simp)
  · split at h
    · exact absurd h (by simp)
    · split at h
      · obtain rfl : _ = c' := Sum.inr.inj h
        exact hv
      next hm =>
        obtain rfl : _ = c' := Sum.inr.inj h
        exact ⟨List.nodup_cons.mpr ⟨hm, hv.1⟩, by simp [hv.2]⟩

theorem bfsSteps_visited_inv [DecidableEq σ] (P : Problem σ α) :
    ∀ (n : Nat) (c c' : ListConfig σ α), bfsSteps P n c = Sum.inr c' →
      c.visited.Nodup ∧ c.numExpanded = c.visited.length →
      c'.visited.Nodup ∧ c'.numExpanded = c'.visited.length := by
  intro n
  induction n with
  | zero =>
    intro c c' h hv
    obtain rfl : c = c' := Sum.inr.inj h
    exact hv
  | succ n ih =>
    intro c c' h hv
    rw [bfsSteps] at h
    cases hs : bfsStep P c with
    | inl r => rw [hs] at h; exact absurd h (by simp)
    | inr c₀ =>
      rw [hs] at h
      exact ih c₀ c' h (bfsStep_visited_inv hs hv)

theorem dfsSteps_visited_inv [DecidableEq σ] (P : Problem σ α) :
    ∀ (n : Nat) (c c' : ListConfig σ α), dfsSteps P n c = Sum.inr c' →
      c.visited.Nodup ∧ c.numExpanded = c.visited.length →
      c'.visited.Nodup ∧ c'.numExpanded = c'.visited.length := by
  intro n
  induction n with
  | zero =>
    intro c c' h hv
    obtain rfl : c = c' := Sum.inr.inj h
    exact hv
  | succ n ih =>
    intro c c' h hv
    rw [dfsSteps] at h
    cases hs : dfsStep P c with
    | inl r => rw [hs] at h; exact absurd h (by simp)
    | inr c₀ =>
      rw [hs] at h
      exact ih c₀ c' h (dfsStep_visited_inv hs hv)

theorem dlsSteps_visited_inv [DecidableEq σ] (P : Problem σ α) (maxDepth : Nat) :
    ∀ (n : Nat) (c c' : DlsConfig σ α), dlsSteps P maxDepth n c = Sum.inr c' →
      c.visited.Nodup ∧ c.numExpanded = c.visited.length →
      c'.visited.Nodup ∧ c'.numExpanded = c'.visited.length := by
  intro n
  induction n with
  | zero =>
    intro c c' h hv
    obtain rfl : c = c' := Sum.inr.inj h
    exact hv
  | succ n ih =>
    intro c c' h hv
    rw [dlsSteps] at h
    cases hs : dlsStep P maxDepth c with
    | inl r => rw [hs] at h; exact absurd h (by simp)
    | inr c₀ =>
      rw [hs] at h
      exact ih c₀ c' h (dlsStep_visited_inv hs hv)

theorem aStarSteps_visited_inv [DecidableEq σ] (P : Problem σ α) (H : σ → Nat) :
    ∀ (n : Nat) (c c' : AstarConfig σ α), aStarSteps P H n c = Sum.inr c' →
      c.visited.Nodup ∧ c.numExpanded = c.visited.length →
      c'.visited.Nodup ∧ c'.numExpanded = c'.visited.length := by
  intro n
  induction n with
  | zero =>
    intro c c' h hv
    obtain rfl : c = c' := Sum.inr.inj h
    exact hv
  | succ n ih =>
    intro c c' h hv
    rw [aStarSteps] at h
    cases hs : aStarStep P H c with
    | inl r => rw [hs] at h; exact absurd h (by simp)
    | inr c₀ =>
      rw [hs] at h
      exact ih c₀ c' h (aStarStep_visited_inv hs hv)

/-- A diamond-shaped problem: `0` leads to `1` and `2`, both of which lead to
`3`.  After `breadthSearch` expands `1` and `2`, state `3` occupies two
fringe entries at once. -/
def diamondProb : Problem Nat Nat where
  cur := 0
  solvedFn := fun _ => false
  succs := fun s =>
    if s = 0 then [(1, 1, 1, false), (2, 2, 1, false)]
    else if s = 1 then [(3, 3, 1, false)]
    else if s = 2 then [(3, 3, 1, false)]
    else []

/-- A problem with a cycle back to a pending fringe entry: `0` leads to `1`
and `2`; the chain `2 → 3 → 4` leads back to `1`.  The LIFO searches expand
the chain while the first node for `1` still waits in the fringe, so state
`1` occupies two fringe entries at once. -/
def chainProb : Problem Nat Nat where
  cur := 0
  solvedFn := fun _ => false
  succs := fun s =>
    if s = 0 then [(1, 1, 1, false), (2, 2, 1, false)]
    else if s = 2 then [(3, 3, 1, false)]
    else if s = 3 then [(4, 4, 1, false)]
    else if s = 4 then [(1, 1, 1, false)]
    else []

/-- `0` leads to `1` and `2`, and `2` leads to `1` again. -/
def astarDupProb : Problem Nat Nat where
  cur := 0
  solvedFn := fun _ => false
  succs := fun s =>
    if s = 0 then [(1, 1, 1, false), (2, 2, 1, false)]
    else if s = 2 then [(1, 1, 1, false)]
    else []

/-- A heuristic that makes `aStarSearch` expand `2` before `1`, so that a
second fringe entry for state `1` is pushed while the first one waits. -/
def astarDupH : Nat → Nat := fun s => if s = 1 then 5 else 0

def diamondConfig3 : ListConfig Nat Nat :=
  ⟨[⟨3, [1, 3], 2, false⟩, ⟨3, [2, 3], 2, false⟩], [2, 1, 0], 3, 2, 3⟩

def chainConfig4 : ListConfig Nat Nat :=
  ⟨[⟨1, [1], 1, false⟩, ⟨1, [2, 3, 4, 1], 4, false⟩], [4, 3, 2, 0], 4, 2, 4⟩

def chainDlsConfig4 : DlsConfig Nat Nat :=
  ⟨[⟨1, [1], 1, false, 1⟩, ⟨1, [2, 3, 4, 1], 4, false, 4⟩], [4, 3, 2, 0], 4, 2, 4⟩

def astarDupConfig2 : AstarConfig Nat Nat :=
  ⟨⟨[(6, ⟨1, [1], 1, false⟩), (7, ⟨1, [2, 1], 2, false⟩)]⟩, [2, 0], 2, 2, 2⟩

/-- C6: in every call of `breadthSearch`, `depthSearch`, `depthLimitedSearch`
or `aStarSearch`, every loop state reachable from the call's initial
configuration has a duplicate-free visited set whose size equals the
expansion counter, so each state key is added to the visited set and expanded
at most once per call; at the same time a state key may occupy several fringe
entries simultaneously, as the runs on `diamondProb`, `chainProb` and
`astarDupProb` reach configurations whose fringe holds two entries with the
same state key, because duplicate suppression is applied when a node is
removed for expansion and not when it is inserted. -/
theorem state_expanded_at_most_once [DecidableEq σ] :
    (∀ (P : Problem σ α) (n : Nat) (c' : ListConfig σ α),
        bfsSteps P n (listInit P) = Sum.inr c' →
        c'.visited.Nodup ∧ c'.numExpanded = c'.visited.length) ∧
    (∀ (P : Problem σ α) (n : Nat) (c' : ListConfig σ α),
        dfsSteps P n (listInit P) = Sum.inr c' →
        c'.visited.Nodup ∧ c'.numExpanded = c'.visited.length) ∧
    (∀ (P : Problem σ α) (maxDepth m t n : Nat) (c' : DlsConfig σ α),
        dlsSteps P maxDepth n (dlsInit P m t) = Sum.inr c' →
        c'.visited.Nodup ∧ c'.numExpanded = c'.visited.length) ∧
    (∀ (P : Problem σ α) (H : σ → Nat) (n : Nat) (c' : AstarConfig σ α),
        aStarSteps P H n (aStarInit P H) = Sum.inr c' →
        c'.visited.Nodup ∧ c'.numExpanded = c'.visited.length) ∧
    (bfsSteps diamondProb 3 (listInit diamondProb) = Sum.inr diamondConfig3 ∧
      ¬(diamondConfig3.fringe.map fun nd => nd.state).Nodup) ∧
    (dfsSteps chainProb 4 (listInit chainProb) = Sum.inr chainConfig4 ∧
      ¬(chainConfig4.fringe.map fun nd => nd.state).Nodup) ∧
    (dlsSteps chainProb 10 4 (dlsInit chainProb 0 0) = Sum.inr chainDlsConfig4 ∧
      ¬(chainDlsConfig4.fringe.map fun nd => nd.state).Nodup) ∧
    (aStarSteps astarDupProb astarDupH 2 (aStarInit astarDupProb astarDupH) =
        Sum.inr astarDupConfig2 ∧
      ¬(astarDupConfig2.fringe.heap.map fun pr => pr.2.state).Nodup) := by
  refine ⟨?_, ?_, ?_, ?_, ⟨by decide, by decide⟩, ⟨by decide, by decide⟩,
    ⟨by decide, by decide⟩, ⟨by decide, by decide⟩⟩
  · intro P n c' h
    exact bfsSteps_visited_inv P n (listInit P) c' h (by simp [listInit])
  · intro P n c' h
    exact dfsSteps_visited_inv P n (listInit P) c' h (by simp [listInit])
  · intro P maxDepth m t n c' h
    exact dlsSteps_visited_inv P maxDepth n (dlsInit P m t) c' h (by simp [dlsInit])
  · intro P H n c' h
    exact aStarSteps_visited_inv P H n (aStarInit P H) c' h (by simp [aStarInit])

theorem state_expanded_at_most_once_witness :
    diamondConfig3.visited.Nodup ∧
      diamondConfig3.numExpanded = diamondConfig3.visited.length :=
  (state_expanded_at_most_once (σ := Nat) (α := Nat)).1 diamondProb 3
    diamondConfig3 (by decide)

/-! ## Equation lemmas for the step functions -/

theorem setState_getState (P : Problem σ α) : P.setState P.getState = P := rfl

theorem bfsStep_nil [DecidableEq σ] (P : Problem σ α) (v : List σ) (e m t : Nat) :
    bfsStep P ⟨[], v, e, m, t⟩ = Sum.inl (([], ⊤, e), m, t) := rfl

theorem bfsStep_cons [DecidableEq σ] (P : Problem σ α) (s : SNode σ α)
    (rest : List (SNode σ α)) (v : List σ) (e m t : Nat) :
    bfsStep P ⟨s :: rest, v, e, m, t⟩ =
      if s.goal then Sum.inl ((s.path, (s.cost : ℕ∞), e), m, t)
      else if s.state ∈ v then Sum.inr ⟨rest, v, e, m, t⟩
      else Sum.inr ⟨(pushLoop (s.state :: v) s (P.getSuccessors s.state) rest m).1,
        s.state :: v, e + 1,
        (pushLoop (s.state :: v) s (P.getSuccessors s.state) rest m).2, e + 1⟩ := rfl

theorem dfsStep_nil [DecidableEq σ] (P : Problem σ α) (v : List σ) (e m t : Nat) :
    dfsStep P ⟨[], v, e, m, t⟩ = Sum.inl (([], ⊤, e), m, t) := rfl

theorem dfsStep_concat [DecidableEq σ] (P : Problem σ α) (s : SNode σ α)
    (l : List (SNode σ α)) (v : List σ) (e m t : Nat) :
    dfsStep P ⟨l ++ [s], v, e, m, t⟩ =
      if s.goal then Sum.inl ((s.path, (s.cost : ℕ∞), e), m, t)
      else if s.state ∈ v then Sum.inr ⟨l, v, e, m, t⟩
      else Sum.inr ⟨(pushLoop (s.state :: v) s (P.getSuccessors s.state) l m).1,
        s.state :: v, e + 1,
        (pushLoop (s.state :: v) s (P.getSuccessors s.state) l m).2, e + 1⟩ := by
  unfold dfsStep
  simp only [List.getLast?_concat, List.dropLast_concat]

theorem dlsStep_nil [DecidableEq σ] (P : Problem σ α) (maxDepth : Nat)
    (v : List σ) (e m t : Nat) :
    dlsStep P maxDepth ⟨[], v, e, m, t⟩ = Sum.inl (([], ⊤, e), m, t) := rfl

theorem dlsStep_concat [DecidableEq σ] (P : Problem σ α) (maxDepth : Nat)
    (s : DNode σ α) (l : List (DNode σ α)) (v : List σ) (e m t : Nat) :
    dlsStep P maxDepth ⟨l ++ [s], v, e, m, t⟩ =
      if s.goal then Sum.inl ((s.path, (s.cost : ℕ∞), e), m, t)
      else if s.state ∉ v ∧ s.depth < maxDepth then
        Sum.inr ⟨(dlsPushLoop (s.state :: v) s (P.getSuccessors s.state) l m).1,
          s.state :: v, e + 1,
          (dlsPushLoop (s.state :: v) s (P.getSuccessors s.state) l m).2, t + 1⟩
      else Sum.inr ⟨l, v, e, m, t⟩ := by
  unfold dlsStep
  simp only [List.getLast?_concat, List.dropLast_concat]

theorem pop_eq_some_heappop {q : PriorityQueue β} {b : β} {pr : Nat}
    {q' : PriorityQueue β} (h : q.pop = some ((b, pr), q')) :
    heappop q.heap = some ((pr, b), q'.heap) := by
  unfold PriorityQueue.pop at h
  cases hp : heappop q.heap with
  | none => rw [hp] at h; exact absurd h (by simp)
  | some x =>
    obtain ⟨⟨p2, b2⟩, rest⟩ := x
    rw [hp] at h
    simp only [Option.map_some', Option.some.injEq, Prod.mk.injEq] at h
    obtain ⟨⟨h1, h2⟩, h3⟩ := h
    subst h1 h2
    rw [← h3]

theorem aStarStep_pop_none [DecidableEq σ] (P : Problem σ α) (H : σ → Nat)
    (c : AstarConfig σ α) (h : c.fringe.pop = none) :
    aStarStep P H c = Sum.inl (([], ⊤, c.numExpanded), c.maxMemoryUse, c.totalStates) := by
  unfold aStarStep
  rw [h]

theorem aStarStep_pop_some [DecidableEq σ] (P : Problem σ α) (H : σ → Nat)
    (c : AstarConfig σ α) (s : SNode σ α) (score : Nat) (q' : PriorityQueue (SNode σ α))
    (h : c.fringe.pop = some ((s, score), q')) :
    aStarStep P H c =
      if s.goal then
        Sum.inl ((s.path, (s.cost : ℕ∞), c.numExpanded), c.maxMemoryUse, c.totalStates)
      else if s.state ∈ c.visited then Sum.inr { c with fringe := q' }
      else
        Sum.inr ⟨aPushLoop (s.state :: c.visited) s H (P.getSuccessors s.state) q',
          s.state :: c.visited, c.numExpanded + 1,
          if (aPushLoop (s.state :: c.visited) s H (P.getSuccessors s.state) q').getSize >
              c.maxMemoryUse then
            (aPushLoop (s.state :: c.visited) s H (P.getSuccessors s.state) q').getSize
          else c.maxMemoryUse,
          c.numExpanded + 1⟩ := by
  unfold aStarStep
  rw [h]

/-! ## Unsolvable problems return the infinite-cost sentinel (claim C4) -/

theorem bfsRun_noGoal [DecidableEq σ] {P : Problem σ α}
    (hflag : ∀ (k : Nat) (s : σ) (x : Succ σ α),
      ReachN P.succs k P.cur s → x ∈ P.succs s → x.2.2.2 = false) :
    ∀ (fuel : Nat) (c : ListConfig σ α),
      (∀ nd ∈ c.fringe, nd.goal = false ∧ ∃ k, ReachN P.succs k P.cur nd.state) →
      ∀ r, bfsRun P fuel c = some r → r.1.1 = [] ∧ r.1.2.1 = ⊤ := by
  intro fuel
  induction fuel with
  | zero => intro c hc r hr; exact absurd hr (by simp [bfsRun])
  | succ fuel ih =>
    intro c hc r hr
    obtain ⟨fringe, v, e, m, t⟩ := c
    rw [bfsRun] at hr
    cases fringe with
    | nil =>
      rw [bfsStep_nil] at hr
      obtain rfl := Option.some.inj hr
      exact ⟨rfl, rfl⟩
    | cons s rest =>
      rw [bfsStep_cons] at hr
      have hs := hc s (by simp)
      rw [if_neg (by simp [hs.1])] at hr
      by_cases hm : s.state ∈ v
      · rw [if_pos hm] at hr
        exact ih _ (fun nd hnd => hc nd (by simp [hnd])) r hr
      · rw [if_neg hm] at hr
        refine ih _ ?_ r hr
        intro nd hnd
        rw [pushLoop_fst_eq] at hnd
        rcases List.mem_append.mp hnd with hnd | hnd
        · exact hc nd (by simp [hnd])
        · obtain ⟨x, hx, rfl⟩ := List.mem_map.mp hnd
          obtain ⟨hxs, -⟩ := List.mem_filter.mp hx
          obtain ⟨k, hk⟩ := hs.2
          exact ⟨hflag k s.state x hk hxs, k + 1, hk.snoc hxs⟩

theorem dfsRun_noGoal [DecidableEq σ] {P : Problem σ α}
    (hflag : ∀ (k : Nat) (s : σ) (x : Succ σ α),
      ReachN P.succs k P.cur s → x ∈ P.succs s → x.2.2.2 = false) :
    ∀ (fuel : Nat) (c : ListConfig σ α),
      (∀ nd ∈ c.fringe, nd.goal = false ∧ ∃ k, ReachN P.succs k P.cur nd.state) →
      ∀ r, dfsRun P fuel c = some r → r.1.1 = [] ∧ r.1.2.1 = ⊤ := by
  intro fuel
  induction fuel with
  | zero => intro c hc r hr; exact absurd hr (by simp [dfsRun])
  | succ fuel ih =>
    intro c hc r hr
    obtain ⟨fringe, v, e, m, t⟩ := c
    rw [dfsRun] at hr
    rcases List.eq_nil_or_concat fringe with rfl | ⟨l, s, rfl⟩
    all_goals simp only [List.concat_eq_append] at hr hc
    · rw [dfsStep_nil] at hr
      obtain rfl := Option.some.inj hr
      exact ⟨rfl, rfl⟩
    · rw [dfsStep_concat] at hr
      have hs := hc s (by simp)
      rw [if_neg (by simp [hs.1])] at hr
      by_cases hm : s.state ∈ v
      · rw [if_pos hm] at hr
        exact ih _ (fun nd hnd => hc nd (by simp [hnd])) r hr
      · rw [if_neg hm] at hr
        refine ih _ ?_ r hr
        intro nd hnd
        rw [pushLoop_fst_eq] at hnd
        rcases List.mem_append.mp hnd with hnd | hnd
        · exact hc nd (by simp [hnd])
        · obtain ⟨x, hx, rfl⟩ := List.mem_map.mp hnd
          obtain ⟨hxs, -⟩ := List.mem_filter.mp hx
          obtain ⟨k, hk⟩ := hs.2
          exact ⟨hflag k s.state x hk hxs, k + 1, hk.snoc hxs⟩

theorem aStarRun_noGoal [DecidableEq σ] {P : Problem σ α} {H : σ → Nat}
    (hflag : ∀ (k : Nat) (s : σ) (x : Succ σ α),
      ReachN P.succs k P.cur s → x ∈ P.succs s → x.2.2.2 = false) :
    ∀ (fuel : Nat) (c : AstarConfig σ α),
      (∀ pr ∈ c.fringe.heap, pr.2.goal = false ∧ ∃ k, ReachN P.succs k P.cur pr.2.state) →
      ∀ r, aStarRun P H fuel c = some r → r.1.1 = [] ∧ r.1.2.1 = ⊤ := by
  intro fuel
  induction fuel with
  | zero => intro c hc r hr; exact absurd hr (by simp [aStarRun])
  | succ fuel ih =>
    intro c hc r hr
    rw [aStarRun] at hr
    cases hp : c.fringe.pop with
    | none =>
      rw [aStarStep_pop_none P H c hp] at hr
      obtain rfl := Option.some.inj hr
      exact ⟨rfl, rfl⟩
    | some pr =>
      obtain ⟨⟨s, score⟩, q'⟩ := pr
      have hpq := pop_eq_some_heappop hp
      obtain ⟨hmem, -, hperm⟩ := heappop_min hpq
      have hq' : ∀ x ∈ q'.heap, x ∈ c.fringe.heap := fun x hx =>
        hperm.symm.subset (List.mem_cons_of_mem _ hx)
      rw [aStarStep_pop_some P H c s score q' hp] at hr
      have hs := hc (score, s) hmem
      have hsg : s.goal = false := hs.1
      rw [if_neg (by simp [hsg])] at hr
      by_cases hm : s.state ∈ c.visited
      · rw [if_pos hm] at hr
        exact ih _ (fun x hx => hc x (hq' x hx)) r hr
      · rw [if_neg hm] at hr
        refine ih _ ?_ r hr
        intro x hx
        simp only [aPushLoop_heap_eq] at hx
        rcases List.mem_append.mp hx with hx | hx
        · exact hc x (hq' x hx)
        · obtain ⟨y, hy, rfl⟩ := List.mem_map.mp hx
          obtain ⟨hys, -⟩ := List.mem_filter.mp hy
          obtain ⟨k, hk⟩ := hs.2
          exact ⟨hflag k s.state y hk hys, k + 1, hk.snoc hys⟩

theorem dlsRun_noGoal [DecidableEq σ] {P : Problem σ α} {maxDepth : Nat}
    (hbd : ∀ (k : Nat), k < maxDepth → ∀ (s : σ) (x : Succ σ α),
      ReachN P.succs k P.cur s → x ∈ P.succs s → x.2.2.2 = false) :
    ∀ (fuel : Nat) (c : DlsConfig σ α),
      (∀ nd ∈ c.fringe, nd.goal = false ∧ ReachN P.succs nd.depth P.cur nd.state) →
      ∀ r, dlsRun P maxDepth fuel c = some r → r.1.1 = [] ∧ r.1.2.1 = ⊤ := by
  intro fuel
  induction fuel with
  | zero => intro c hc r hr; exact absurd hr (by simp [dlsRun])
  | succ fuel ih =>
    intro c hc r hr
    obtain ⟨fringe, v, e, m, t⟩ := c
    rw [dlsRun] at hr
    rcases List.eq_nil_or_concat fringe with rfl | ⟨l, s, rfl⟩
    all_goals simp only [List.concat_eq_append] at hr hc
    · rw [dlsStep_nil] at hr
      obtain rfl := Option.some.inj hr
      exact ⟨rfl, rfl⟩
    · rw [dlsStep_concat] at hr
      have hs := hc s (by simp)
      rw [if_neg (by simp [hs.1])] at hr
      by_cases hm : s.state ∉ v ∧ s.depth < maxDepth
      · rw [if_pos hm] at hr
        refine ih _ ?_ r hr
        intro nd hnd
        rw [dlsPushLoop_fst_eq] at hnd
        rcases List.mem_append.mp hnd with hnd | hnd
        · exact hc nd (by simp [hnd])
        · obtain ⟨x, hx, rfl⟩ := List.mem_map.mp hnd
          obtain ⟨hxs, -⟩ := List.mem_filter.mp hx
          exact ⟨hbd s.depth hm.2 s.state x hs.2 hxs, hs.2.snoc hxs⟩
      · rw [if_neg hm] at hr
        exact ih _ (fun nd hnd => hc nd (by simp [hnd])) r hr

theorem depthLimitedSearch_noGoal [DecidableEq σ] {P : Problem σ α} {maxDepth : Nat}
    (hstart : P.isSolved = false)
    (hbd : ∀ (k : Nat), k < maxDepth → ∀ (s : σ) (x : Succ σ α),
      ReachN P.succs k P.cur s → x ∈ P.succs s → x.2.2.2 = false)
    (fuel : Nat) (reset : Bool) (m0 t0 : Nat) :
    ∀ r, depthLimitedSearch P maxDepth fuel reset m0 t0 = some r →
      r.1.1 = [] ∧ r.1.2.1 = ⊤ := by
  intro r hr
  refine dlsRun_noGoal hbd fuel _ ?_ r hr
  intro nd hnd
  simp only [dlsInit, List.mem_singleton] at hnd
  subst hnd
  exact ⟨hstart, ReachN.zero P.succs P.cur⟩

theorem idLoop_noGoal [DecidableEq σ] {P : Problem σ α} {maxDepth : Nat}
    (hstart : P.isSolved = false)
    (hbd : ∀ (k : Nat), k < maxDepth → ∀ (s : σ) (x : Succ σ α),
      ReachN P.succs k P.cur s → x ∈ P.succs s → x.2.2.2 = false)
    (fuel : Nat) :
    ∀ (dl depth acc m t : Nat), depth + dl ≤ maxDepth + 1 →
      ∀ r, idLoop P P.getState fuel dl depth acc m t = some r →
        r.1.1 = [] ∧ r.1.2.1 = ⊤ := by
  intro dl
  induction dl with
  | zero =>
    intro depth acc m t _ r hr
    obtain rfl := Option.some.inj hr
    exact ⟨rfl, rfl⟩
  | succ dl ih =>
    intro depth acc m t hdep r hr
    rw [idLoop, setState_getState] at hr
    cases hdls : depthLimitedSearch P depth fuel false m t with
    | none => rw [hdls] at hr; exact absurd hr (by simp)
    | some rr =>
      obtain ⟨⟨path, cost, exp⟩, m', t'⟩ := rr
      rw [hdls] at hr
      have hbd' : ∀ (k : Nat), k < depth → ∀ (s : σ) (x : Succ σ α),
          ReachN P.succs k P.cur s → x ∈ P.succs s → x.2.2.2 = false :=
        fun k hk => hbd k (by omega)
      obtain ⟨hpath, -⟩ := depthLimitedSearch_noGoal hstart hbd' fuel false m t _ hdls
      simp only at hpath
      subst hpath
      simp only [List.length_nil, gt_iff_lt, Nat.lt_irrefl, if_false] at hr
      exact ih (depth + 1) (acc + exp) m' t' (by omega) r hr

/-- C4: on a Problem whose start state is not solved and in which no goal
node can ever enter the fringe within the search's bound — no successor of a
state reachable from the start carries a true goal flag (for the
depth-limited searches: no successor generated within the depth bound does) —
every completed call of the five entry points returns, as a normal `some`
value, an empty action sequence and the infinite-cost sentinel `⊤` together
with the expansion count accumulated so far. -/
theorem no_goal_failure [DecidableEq σ] (P : Problem σ α)
    (hstart : P.isSolved = false) :
    ((∀ (k : Nat) (s : σ) (x : Succ σ α),
        ReachN P.succs k P.cur s → x ∈ P.succs s → x.2.2.2 = false) →
      ∀ (fuel : Nat) (H : σ → Nat) (r : SearchOutput α),
        (breadthSearch P fuel = some r → r.1.1 = [] ∧ r.1.2.1 = ⊤) ∧
        (depthSearch P fuel = some r → r.1.1 = [] ∧ r.1.2.1 = ⊤) ∧
        (aStarSearch P H fuel = some r → r.1.1 = [] ∧ r.1.2.1 = ⊤)) ∧
    (∀ maxDepth : Nat,
      (∀ (k : Nat), k < maxDepth → ∀ (s : σ) (x : Succ σ α),
        ReachN P.succs k P.cur s → x ∈ P.succs s → x.2.2.2 = false) →
      ∀ (fuel : Nat) (reset : Bool) (m0 t0 : Nat) (r : SearchOutput α),
        (depthLimitedSearch P maxDepth fuel reset m0 t0 = some r →
          r.1.1 = [] ∧ r.1.2.1 = ⊤) ∧
        (iterativeDeepening P maxDepth fuel = some r →
          r.1.1 = [] ∧ r.1.2.1 = ⊤)) := by
  have hseed : ∀ nd ∈ (listInit P).fringe,
      nd.goal = false ∧ ∃ k, ReachN P.succs k P.cur nd.state := by
    intro nd hnd
    simp only [listInit, List.mem_singleton] at hnd
    subst hnd
    exact ⟨hstart, 0, ReachN.zero P.succs P.cur⟩
  constructor
  · intro hflag fuel H r
    refine ⟨fun h => bfsRun_noGoal hflag fuel _ hseed r h,
      fun h => dfsRun_noGoal hflag fuel _ hseed r h,
      fun h => aStarRun_noGoal hflag fuel _ ?_ r h⟩
    intro pr hpr
    simp only [aStarInit, PriorityQueue.push, PriorityQueue.empty, heappush,
      List.nil_append, List.mem_singleton] at hpr
    subst hpr
    exact ⟨hstart, 0, ReachN.zero P.succs P.cur⟩
  · intro maxDepth hbd fuel reset m0 t0 r
    refine ⟨fun h => depthLimitedSearch_noGoal hstart hbd fuel reset m0 t0 r h,
      fun h => idLoop_noGoal hstart hbd fuel maxDepth 1 0 0 0 (by omega) r h⟩

/-- A one-state problem whose single state is not solved and has no
successors. -/
def soloUnsolved : Problem Nat Nat := ⟨0, fun _ => false, fun _ => []⟩

theorem no_goal_failure_witness :
    ((([] : List Nat), (⊤ : ℕ∞), 1), 0, 1).1.1 = [] ∧
      ((([] : List Nat), (⊤ : ℕ∞), 1), 0, 1).1.2.1 = ⊤ :=
  ((no_goal_failure soloUnsolved rfl).1
    (fun _ _ x _ hx => absurd hx (List.not_mem_nil x)) 2 (fun _ => 0)
    ((([], ⊤, 1), 0, 1))).1 (by decide)

/-! ## Termination on finite reachable state spaces (claim C7) -/

theorem pushLoop_length_le [DecidableEq σ] (visited : List σ) (s : SNode σ α)
    (l : List (Succ σ α)) (fringe : List (SNode σ α)) (maxMem : Nat) :
    (pushLoop visited s l fringe maxMem).1.length ≤ fringe.length + l.length := by
  rw [pushLoop_fst_eq]
  simp only [List.length_append, List.length_map]
  exact Nat.add_le_add_left (List.length_filter_le _ _) _

theorem dlsPushLoop_length_le [DecidableEq σ] (visited : List σ) (s : DNode σ α)
    (l : List (Succ σ α)) (fringe : List (DNode σ α)) (maxMem : Nat) :
    (dlsPushLoop visited s l fringe maxMem).1.length ≤ fringe.length + l.length := by
  rw [dlsPushLoop_fst_eq]
  simp only [List.length_append, List.length_map]
  exact Nat.add_le_add_left (List.length_filter_le _ _) _

theorem aPushLoop_length_le [DecidableEq σ] (visited : List σ) (s : SNode σ α)
    (H : σ → Nat) (l : List (Succ σ α)) (q : PriorityQueue (SNode σ α)) :
    (aPushLoop visited s H l q).heap.length ≤ q.heap.length + l.length := by
  rw [aPushLoop_heap_eq]
  simp only [List.length_append, List.length_map]
  exact Nat.add_le_add_left (List.length_filter_le _ _) _

theorem nodup_length_le_card [DecidableEq σ] {v : List σ} {R : Finset σ}
    (hnd : v.Nodup) (hvR : ∀ x ∈ v, x ∈ R) : v.length ≤ R.card := by
  calc v.length = v.toFinset.card := (List.toFinset_card_of_nodup hnd).symm
    _ ≤ R.card := Finset.card_le_card (fun x hx => hvR x (List.mem_toFinset.mp hx))

theorem measure_decreases {Rcard vlen B fuel flen flen' : Nat}
    (hv : vlen < Rcard)
    (hflen : flen' ≤ flen - 1 + B) (hpos : 0 < flen)
    (hm : flen + (Rcard - vlen) * (B + 1) < fuel + 1) :
    flen' + (Rcard - (vlen + 1)) * (B + 1) < fuel := by
  have hD : Rcard - vlen = (Rcard - (vlen + 1)) + 1 := by omega
  have hmul : (Rcard - vlen) * (B + 1) = (Rcard - (vlen + 1)) * (B + 1) + (B + 1) := by
    rw [hD]; ring
  omega

theorem bfsRun_terminates [DecidableEq σ] {P : Problem σ α} {R : Finset σ} {B : Nat}
    (hclosed : ∀ s ∈ R, ∀ x ∈ P.succs s, x.1 ∈ R)
    (hB : ∀ s ∈ R, (P.succs s).length ≤ B) :
    ∀ (fuel : Nat) (c : ListConfig σ α),
      c.visited.Nodup → (∀ v ∈ c.visited, v ∈ R) → (∀ nd ∈ c.fringe, nd.state ∈ R) →
      c.fringe.length + (R.card - c.visited.length) * (B + 1) < fuel →
      (bfsRun P fuel c).isSome := by
  intro fuel
  induction fuel with
  | zero => intro c _ _ _ hm; omega
  | succ fuel ih =>
    intro c hnd hvR hfR hm
    obtain ⟨fringe, v, e, m, t⟩ := c
    rw [bfsRun]
    cases fringe with
    | nil => rw [bfsStep_nil]; simp
    | cons s rest =>
      rw [bfsStep_cons]
      by_cases hg : s.goal = true
      · rw [if_pos hg]; simp
      · rw [if_neg hg]
        simp only at hnd hvR hfR hm
        by_cases hmem : s.state ∈ v
        · rw [if_pos hmem]
          simp only
          refine ih _ hnd hvR (fun nd hnd' => hfR nd (by simp [hnd'])) ?_
          simp only [List.length_cons] at hm ⊢
          omega
        · rw [if_neg hmem]
          simp only
          have hsR : s.state ∈ R := hfR s (by simp)
          refine ih _ (List.nodup_cons.mpr ⟨hmem, hnd⟩)
            (fun x hx => by rcases List.mem_cons.mp hx with rfl | hx
                            exacts [hsR, hvR x hx]) ?_ ?_
          · intro nd hnd'
            rw [pushLoop_fst_eq] at hnd'
            rcases List.mem_append.mp hnd' with hnd' | hnd'
            · exact hfR nd (by simp [hnd'])
            · obtain ⟨x, hx, rfl⟩ := List.mem_map.mp hnd'
              exact hclosed s.state hsR x (List.mem_filter.mp hx).1
          · simp only [List.length_cons] at hm ⊢
            have hpl := pushLoop_length_le (s.state :: v) s (P.getSuccessors s.state) rest m
            have hBs := hB s.state hsR
            simp only [Problem.getSuccessors] at hpl
            have hflen : (pushLoop (s.state :: v) s (P.getSuccessors s.state) rest m).1.length ≤
                (rest.length + 1) - 1 + B := by
              simp only [Problem.getSuccessors]
              omega
            exact measure_decreases (nodup_length_le_card
                (List.nodup_cons.mpr ⟨hmem, hnd⟩)
                (fun x hx => by rcases List.mem_cons.mp hx with rfl | hx
                                exacts [hsR, hvR x hx])) hflen (by omega) (by omega)

theorem dfsRun_terminates [DecidableEq σ] {P : Problem σ α} {R : Finset σ} {B : Nat}
    (hclosed : ∀ s ∈ R, ∀ x ∈ P.succs s, x.1 ∈ R)
    (hB : ∀ s ∈ R, (P.succs s).length ≤ B) :
    ∀ (fuel : Nat) (c : ListConfig σ α),
      c.visited.Nodup → (∀ v ∈ c.visited, v ∈ R) → (∀ nd ∈ c.fringe, nd.state ∈ R) →
      c.fringe.length + (R.card - c.visited.length) * (B + 1) < fuel →
      (dfsRun P fuel c).isSome := by
  intro fuel
  induction fuel with
  | zero => intro c _ _ _ hm; omega
  | succ fuel ih =>
    intro c hnd hvR hfR hm
    obtain ⟨fringe, v, e, m, t⟩ := c
    rw [dfsRun]
    rcases List.eq_nil_or_concat fringe with rfl | ⟨l, s, rfl⟩
    all_goals simp only [List.concat_eq_append] at hfR hm ⊢
    · rw [dfsStep_nil]; simp
    · rw [dfsStep_concat]
      by_cases hg : s.goal = true
      · rw [if_pos hg]; simp
      · rw [if_neg hg]
        simp only at hnd hvR
        by_cases hmem : s.state ∈ v
        · rw [if_pos hmem]
          simp only
          refine ih _ hnd hvR (fun nd hnd' => hfR nd (by simp [hnd'])) ?_
          simp only [List.length_append, List.length_cons, List.length_nil] at hm ⊢
          omega
        · rw [if_neg hmem]
          simp only
          have hsR : s.state ∈ R := hfR s (by simp)
          refine ih _ (List.nodup_cons.mpr ⟨hmem, hnd⟩)
            (fun x hx => by rcases List.mem_cons.mp hx with rfl | hx
                            exacts [hsR, hvR x hx]) ?_ ?_
          · intro nd hnd'
            rw [pushLoop_fst_eq] at hnd'
            rcases List.mem_append.mp hnd' with hnd' | hnd'
            · exact hfR nd (by simp [hnd'])
            · obtain ⟨x, hx, rfl⟩ := List.mem_map.mp hnd'
              exact hclosed s.state hsR x (List.mem_filter.mp hx).1
          · simp only [List.length_append, List.length_cons, List.length_nil] at hm ⊢
            have hpl := pushLoop_length_le (s.state :: v) s (P.getSuccessors s.state) l m
            have hBs := hB s.state hsR
            simp only [Problem.getSuccessors] at hpl
            have hflen : (pushLoop (s.state :: v) s (P.getSuccessors s.state) l m).1.length ≤
                (l.length + 1) - 1 + B := by
              simp only [Problem.getSuccessors]
              omega
            exact measure_decreases (nodup_length_le_card
                (List.nodup_cons.mpr ⟨hmem, hnd⟩)
                (fun x hx => by rcases List.mem_cons.mp hx with rfl | hx
                                exacts [hsR, hvR x hx])) hflen (by omega) (by omega)

theorem dlsRun_terminates [DecidableEq σ] {P : Problem σ α} {R : Finset σ} {B : Nat}
    {maxDepth : Nat}
    (hclosed : ∀ s ∈ R, ∀ x ∈ P.succs s, x.1 ∈ R)
    (hB : ∀ s ∈ R, (P.succs s).length ≤ B) :
    ∀ (fuel : Nat) (c : DlsConfig σ α),
      c.visited.Nodup → (∀ v ∈ c.visited, v ∈ R) → (∀ nd ∈ c.fringe, nd.state ∈ R) →
      c.fringe.length + (R.card - c.visited.length) * (B + 1) < fuel →
      (dlsRun P maxDepth fuel c).isSome := by
  intro fuel
  induction fuel with
  | zero => intro c _ _ _ hm; omega
  | succ fuel ih =>
    intro c hnd hvR hfR hm
    obtain ⟨fringe, v, e, m, t⟩ := c
    rw [dlsRun]
    rcases List.eq_nil_or_concat fringe with rfl | ⟨l, s, rfl⟩
    all_goals simp only [List.concat_eq_append] at hfR hm ⊢
    · rw [dlsStep_nil]; simp
    · rw [dlsStep_concat]
      by_cases hg : s.goal = true
      · rw [if_pos hg]; simp
      · rw [if_neg hg]
        simp only at hnd hvR
        by_cases hcond : s.state ∉ v ∧ s.depth < maxDepth
        · rw [if_pos hcond]
          simp only
          have hsR : s.state ∈ R := hfR s (by simp)
          refine ih _ (List.nodup_cons.mpr ⟨hcond.1, hnd⟩)
            (fun x hx => by rcases List.mem_cons.mp hx with rfl | hx
                            exacts [hsR, hvR x hx]) ?_ ?_
          · intro nd hnd'
            rw [dlsPushLoop_fst_eq] at hnd'
            rcases List.mem_append.mp hnd' with hnd' | hnd'
            · exact hfR nd (by simp [hnd'])
            · obtain ⟨x, hx, rfl⟩ := List.mem_map.mp hnd'
              exact hclosed s.state hsR x (List.mem_filter.mp hx).1
          · simp only [List.length_append, List.length_cons, List.length_nil] at hm ⊢
            have hpl := dlsPushLoop_length_le (s.state :: v) s (P.getSuccessors s.state) l m
            have hBs := hB s.state hsR
            simp only [Problem.getSuccessors] at hpl
            have hflen : (dlsPushLoop (s.state :: v) s (P.getSuccessors s.state) l m).1.length ≤
                (l.length + 1) - 1 + B := by
              simp only [Problem.getSuccessors]
              omega
            exact measure_decreases (nodup_length_le_card
                (List.nodup_cons.mpr ⟨hcond.1, hnd⟩)
                (fun x hx => by rcases List.mem_cons.mp hx with rfl | hx
                                exacts [hsR, hvR x hx])) hflen (by omega) (by omega)
        · rw [if_neg hcond]
          simp only
          refine ih _ hnd hvR (fun nd hnd' => hfR nd (by simp [hnd'])) ?_
          simp only [List.length_append, List.length_cons, List.length_nil] at hm ⊢
          omega

theorem aStarRun_terminates [DecidableEq σ] {P : Problem σ α} {H : σ → Nat}
    {R : Finset σ} {B : Nat}
    (hclosed : ∀ s ∈ R, ∀ x ∈ P.succs s, x.1 ∈ R)
    (hB : ∀ s ∈ R, (P.succs s).length ≤ B) :
    ∀ (fuel : Nat) (c : AstarConfig σ α),
      c.visited.Nodup → (∀ v ∈ c.visited, v ∈ R) →
      (∀ pr ∈ c.fringe.heap, pr.2.state ∈ R) →
      c.fringe.heap.length + (R.card - c.visited.length) * (B + 1) < fuel →
      (aStarRun P H fuel c).isSome := by
  intro fuel
  induction fuel with
  | zero => intro c _ _ _ hm; omega
  | succ fuel ih =>
    intro c hnd hvR hfR hm
    rw [aStarRun]
    cases hp : c.fringe.pop with
    | none => rw [aStarStep_pop_none P H c hp]; simp
    | some pr =>
      obtain ⟨⟨s, score⟩, q'⟩ := pr
      have hpq := pop_eq_some_heappop hp
      obtain ⟨hmemh, -, hperm⟩ := heappop_min hpq
      have hq' : ∀ x ∈ q'.heap, x ∈ c.fringe.heap := fun x hx =>
        hperm.symm.subset (List.mem_cons_of_mem _ hx)
      have hlen : c.fringe.heap.length = q'.heap.length + 1 := by
        have := hperm.length_eq
        simpa using this
      rw [aStarStep_pop_some P H c s score q' hp]
      by_cases hg : s.goal = true
      · rw [if_pos hg]; simp
      · rw [if_neg hg]
        by_cases hmem : s.state ∈ c.visited
        · rw [if_pos hmem]
          simp only
          refine ih _ hnd hvR (fun x hx => hfR x (hq' x hx)) ?_
          show q'.heap.length + (R.card - c.visited.length) * (B + 1) < fuel
          omega
        · rw [if_neg hmem]
          simp only
          have hsR : s.state ∈ R := hfR (score, s) hmemh
          refine ih _ (List.nodup_cons.mpr ⟨hmem, hnd⟩)
            (fun x hx => by rcases List.mem_cons.mp hx with rfl | hx
                            exacts [hsR, hvR x hx]) ?_ ?_
          · intro x hx
            simp only [aPushLoop_heap_eq] at hx
            rcases List.mem_append.mp hx with hx | hx
            · exact hfR x (hq' x hx)
            · obtain ⟨y, hy, rfl⟩ := List.mem_map.mp hx
              exact hclosed s.state hsR y (List.mem_filter.mp hy).1
          · have hpl := aPushLoop_length_le (s.state :: c.visited) s H
              (P.getSuccessors s.state) q'
            have hBs := hB s.state hsR
            simp only [Problem.getSuccessors] at hpl
            have hflen : (aPushLoop (s.state :: c.visited) s H
                (P.getSuccessors s.state) q').heap.length ≤
                c.fringe.heap.length - 1 + B := by
              simp only [Problem.getSuccessors]
              omega
            exact measure_decreases (nodup_length_le_card
                (List.nodup_cons.mpr ⟨hmem, hnd⟩)
                (fun x hx => by rcases List.mem_cons.mp hx with rfl | hx
                                exacts [hsR, hvR x hx])) hflen (by omega) (by omega)

theorem idLoop_isSome [DecidableEq σ] {P : Problem σ α} {fuel : Nat}
    (hin : ∀ (depth m t : Nat),
      (depthLimitedSearch P depth fuel false m t).isSome) :
    ∀ (dl depth acc m t : Nat),
      (idLoop P P.getState fuel dl depth acc m t).isSome := by
  intro dl
  induction dl with
  | zero => intro depth acc m t; simp [idLoop]
  | succ dl ih =>
    intro depth acc m t
    rw [idLoop, setState_getState]
    cases hdls : depthLimitedSearch P depth fuel false m t with
    | none => exact absurd hdls (by intro h; have := hin depth m t; simp [h] at this)
    | some rr =>
      obtain ⟨⟨path, cost, exp⟩, m', t'⟩ := rr
      by_cases hp : path.length > 0
      · simp [hp]
      · simp only [hp, if_false]
        exact ih (depth + 1) (acc + exp) m' t'

/-- C7: on every Problem whose reachable state space is contained in a finite
set `R` that is closed under successors and on which the successor-list
length is bounded by `B`, each of `breadthSearch`, `depthSearch`,
`depthLimitedSearch` and `aStarSearch` terminates — some finite fuel makes
the main loop finish — and `iterativeDeepening`, which runs at most
`maxDepth` depth-limited iterations, terminates as well. -/
theorem searches_terminate [DecidableEq σ] (P : Problem σ α) (R : Finset σ)
    (B : Nat) (hstart : P.cur ∈ R)
    (hclosed : ∀ s ∈ R, ∀ x ∈ P.succs s, x.1 ∈ R)
    (hB : ∀ s ∈ R, (P.succs s).length ≤ B) :
    (∃ fuel, (breadthSearch P fuel).isSome) ∧
    (∃ fuel, (depthSearch P fuel).isSome) ∧
    (∀ (maxDepth : Nat) (reset : Bool) (m0 t0 : Nat),
      ∃ fuel, (depthLimitedSearch P maxDepth fuel reset m0 t0).isSome) ∧
    (∀ H : σ → Nat, ∃ fuel, (aStarSearch P H fuel).isSome) ∧
    (∀ maxDepth : Nat, ∃ fuel, (iterativeDeepening P maxDepth fuel).isSome) := by
  have hfR : ∀ nd ∈ (listInit P).fringe, nd.state ∈ R := by
    intro nd hnd
    simp only [listInit, List.mem_singleton] at hnd
    subst hnd
    exact hstart
  refine ⟨⟨2 + R.card * (B + 1), ?_⟩, ⟨2 + R.card * (B + 1), ?_⟩, ?_, ?_, ?_⟩
  · exact bfsRun_terminates hclosed hB _ (listInit P) List.nodup_nil
      (fun v hv => absurd hv (List.not_mem_nil v)) hfR
      (by show 1 + R.card * (B + 1) < 2 + R.card * (B + 1); omega)
  · exact dfsRun_terminates hclosed hB _ (listInit P) List.nodup_nil
      (fun v hv => absurd hv (List.not_mem_nil v)) hfR
      (by show 1 + R.card * (B + 1) < 2 + R.card * (B + 1); omega)
  · intro maxDepth reset m0 t0
    refine ⟨2 + R.card * (B + 1), ?_⟩
    refine dlsRun_terminates hclosed hB _ _ List.nodup_nil
      (fun v hv => absurd hv (List.not_mem_nil v)) ?_
      (by show 1 + R.card * (B + 1) < 2 + R.card * (B + 1); omega)
    intro nd hnd
    simp only [dlsInit, List.mem_singleton] at hnd
    subst hnd
    exact hstart
  · intro H
    refine ⟨2 + R.card * (B + 1), ?_⟩
    refine aStarRun_terminates hclosed hB _ _ List.nodup_nil
      (fun v hv => absurd hv (List.not_mem_nil v)) ?_ ?_
    · intro pr hpr
      simp only [aStarInit, PriorityQueue.push, PriorityQueue.empty, heappush,
        List.nil_append, List.mem_singleton] at hpr
      subst hpr
      exact hstart
    · show 1 + R.card * (B + 1) < 2 + R.card * (B + 1)
      omega
  · intro maxDepth
    refine ⟨2 + R.card * (B + 1), ?_⟩
    refine idLoop_isSome ?_ maxDepth 1 0 0 0
    intro depth m t
    refine dlsRun_terminates hclosed hB _ _ List.nodup_nil
      (fun v hv => absurd hv (List.not_mem_nil v)) ?_
      (by show 1 + R.card * (B + 1) < 2 + R.card * (B + 1); omega)
    intro nd hnd
    simp only [dlsInit, List.mem_singleton] at hnd
    subst hnd
    exact hstart

theorem searches_terminate_witness :
    (∃ fuel, (breadthSearch soloUnsolved fuel).isSome) ∧
    (∃ fuel, (depthSearch soloUnsolved fuel).isSome) ∧
    (∀ (maxDepth : Nat) (reset : Bool) (m0 t0 : Nat),
      ∃ fuel, (depthLimitedSearch soloUnsolved maxDepth fuel reset m0 t0).isSome) ∧
    (∀ H : Nat → Nat, ∃ fuel, (aStarSearch soloUnsolved H fuel).isSome) ∧
    (∀ maxDepth : Nat, ∃ fuel, (iterativeDeepening soloUnsolved maxDepth fuel).isSome) :=
  searches_terminate soloUnsolved {0} 0 (by decide)
    (fun s _ x hx => absurd hx (List.not_mem_nil x))
    (fun s _ => by simp [soloUnsolved])

/-! ## Breadth-first search finds a minimum-action path (claim C3) -/

theorem mem_pushList [DecidableEq σ] {visited : List σ} {s : SNode σ α}
    {l : List (Succ σ α)} {nd : SNode σ α} :
    (nd ∈ (l.filter (fun x => decide (x.1 ∉ visited))).map
      (fun x => (⟨x.1, s.path ++ [x.2.1], s.cost + x.2.2.1, x.2.2.2⟩ : SNode σ α))) ↔
    ∃ x ∈ l, x.1 ∉ visited ∧
      nd = ⟨x.1, s.path ++ [x.2.1], s.cost + x.2.2.1, x.2.2.2⟩ := by
  constructor
  · intro h
    obtain ⟨x, hx, rfl⟩ := List.mem_map.mp h
    obtain ⟨hxl, hxv⟩ := List.mem_filter.mp hx
    exact ⟨x, hxl, by simpa using hxv, rfl⟩
  · intro h
    obtain ⟨x, hxl, hxv, hnd⟩ := h
    subst hnd
    exact List.mem_map.mpr ⟨x, List.mem_filter.mpr ⟨hxl, by simpa using hxv⟩, rfl⟩

/-- The loop invariant behind the optimality of `breadthSearch` for a problem
whose goal flags agree with the predicate `G` and whose nearest goal lies at
distance `d` from the start: fringe depths are nondecreasing and span at most
two consecutive levels; every fringe node was generated along a real path of
its own length whose flag matches `G`; every visited state was reached within
the current front depth; and some fringe node lies on an optimal goal path,
at its true distance from the start. -/
structure BfsLevelInv (P : Problem σ α) (G : σ → Bool) (d : Nat)
    (c : ListConfig σ α) : Prop where
  sorted : c.fringe.Pairwise (fun a b => a.path.length ≤ b.path.length)
  twoLevel : ∀ nd ∈ c.fringe, ∀ h, c.fringe.head? = some h →
    nd.path.length ≤ h.path.length + 1
  sound : ∀ nd ∈ c.fringe,
    ReachN P.succs nd.path.length P.cur nd.state ∧ nd.goal = G nd.state
  visitedReach : ∀ v ∈ c.visited, ∃ j, ReachN P.succs j P.cur v ∧
    ∀ h, c.fringe.head? = some h → j ≤ h.path.length
  witness : ∃ nd ∈ c.fringe, nd.state ∉ c.visited ∧
    (∀ j, j < nd.path.length → ¬ ReachN P.succs j P.cur nd.state) ∧
    nd.path.length ≤ d ∧
    (∃ g, ReachN P.succs (d - nd.path.length) nd.state g ∧ G g = true) ∧
    (∀ j, j < d - nd.path.length → ∀ g, ReachN P.succs j nd.state g → G g = false)

theorem bfsStep_level_inl [DecidableEq σ] {P : Problem σ α} {G : σ → Bool}
    {d : Nat} {c : ListConfig σ α}
    (hmin : ∀ j, j < d → ∀ g, ReachN P.succs j P.cur g → G g = false)
    (hI : BfsLevelInv P G d c) :
    ∀ r, bfsStep P c = Sum.inl r → r.1.1.length = d := by
  obtain ⟨fringe, v, e, mm, tt⟩ := c
  cases fringe with
  | nil =>
    obtain ⟨nd, hnd, -⟩ := hI.witness
    exact absurd hnd (List.not_mem_nil nd)
  | cons s rest =>
    intro r hr
    rw [bfsStep_cons] at hr
    by_cases hg : s.goal = true
    · rw [if_pos hg] at hr
      obtain rfl : _ = r := Sum.inl.inj hr
      have hsound_s := hI.sound s (List.mem_cons_self s rest)
      have hGs : G s.state = true := by rw [← hsound_s.2]; exact hg
      have hge : d ≤ s.path.length := by
        by_contra hcon
        push_neg at hcon
        have := hmin s.path.length hcon s.state hsound_s.1
        rw [this] at hGs
        exact absurd hGs (by simp)
      have hle : s.path.length ≤ d := by
        obtain ⟨w, hw, -, -, hwd, -, -⟩ := hI.witness
        rcases List.mem_cons.mp hw with rfl | hw'
        · exact hwd
        · have hsw := (List.pairwise_cons.mp hI.sorted).1 w hw'
          omega
      simp only
      omega
    · rw [if_neg hg] at hr
      by_cases hmem : s.state ∈ v
      · rw [if_pos hmem] at hr
        exact absurd hr (by simp)
      · rw [if_neg hmem] at hr
        exact absurd hr (by simp)

theorem bfsStep_level_inr [DecidableEq σ] {P : Problem σ α} {G : σ → Bool}
    {d : Nat} {c : ListConfig σ α}
    (hflagG : ∀ (s : σ) (x : Succ σ α), x ∈ P.succs s → x.2.2.2 = G x.1)
    (hmin : ∀ j, j < d → ∀ g, ReachN P.succs j P.cur g → G g = false)
    (hI : BfsLevelInv P G d c) :
    ∀ c', bfsStep P c = Sum.inr c' → BfsLevelInv P G d c' := by
  obtain ⟨fringe, v, e, mm, tt⟩ := c
  cases fringe with
  | nil =>
    obtain ⟨nd, hnd, -⟩ := hI.witness
    exact absurd hnd (List.not_mem_nil nd)
  | cons s rest =>
    intro c' hr
    rw [bfsStep_cons] at hr
    have hsound_s := hI.sound s (List.mem_cons_self s rest)
    have hmle : ∀ nd ∈ rest, s.path.length ≤ nd.path.length :=
      (List.pairwise_cons.mp hI.sorted).1
    have htwo : ∀ nd ∈ s :: rest, nd.path.length ≤ s.path.length + 1 :=
      fun nd h => hI.twoLevel nd h s rfl
    by_cases hg : s.goal = true
    · rw [if_pos hg] at hr
      exact absurd hr (by simp)
    rw [if_neg hg] at hr
    by_cases hmem : s.state ∈ v
    · -- already-visited pop: drop the front node
      rw [if_pos hmem] at hr
      obtain rfl : _ = c' := Sum.inr.inj hr
      refine ⟨(List.pairwise_cons.mp hI.sorted).2, ?_, ?_, ?_, ?_⟩
      · intro nd hnd h hh
        have h1 := htwo nd (List.mem_cons_of_mem s hnd)
        have h2 := hmle h (head?_mem hh)
        omega
      · exact fun nd hnd => hI.sound nd (List.mem_cons_of_mem s hnd)
      · intro v₀ hv₀
        obtain ⟨j, hjr, hjle⟩ := hI.visitedReach v₀ hv₀
        refine ⟨j, hjr, fun h hh => ?_⟩
        have := hjle s rfl
        have := hmle h (head?_mem hh)
        omega
      · obtain ⟨w, hw, hwnv, hwmin, hwd, hwg, hwgmin⟩ := hI.witness
        have hws : w ≠ s := fun heq => hwnv (heq ▸ hmem)
        have hwrest : w ∈ rest := by
          rcases List.mem_cons.mp hw with heq | hw'
          · exact absurd heq hws
          · exact hw'
        exact ⟨w, hwrest, hwnv, hwmin, hwd, hwg, hwgmin⟩
    · -- expansion of an unvisited front node
      rw [if_neg hmem] at hr
      obtain rfl : _ = c' := Sum.inr.inj hr
      rw [pushLoop_fst_eq]
      set pushed : List (SNode σ α) :=
        ((P.getSuccessors s.state).filter (fun x => decide (x.1 ∉ s.state :: v))).map
          (fun x => ⟨x.1, s.path ++ [x.2.1], s.cost + x.2.2.1, x.2.2.2⟩) with hpushed
      have hpdepth : ∀ nd ∈ pushed, nd.path.length = s.path.length + 1 := by
        intro nd hnd
        rw [hpushed] at hnd
        obtain ⟨x, -, -, rfl⟩ := mem_pushList.mp hnd
        simp
      have hhead_ge : ∀ h, (rest ++ pushed).head? = some h →
          s.path.length ≤ h.path.length := by
        intro h hh
        rcases List.mem_append.mp (head?_mem hh) with hh' | hh'
        · exact hmle h hh'
        · rw [hpdepth h hh']; omega
      refine ⟨?_, ?_, ?_, ?_, ?_⟩
      · rw [List.pairwise_append]
        refine ⟨(List.pairwise_cons.mp hI.sorted).2, ?_, ?_⟩
        · refine List.pairwise_of_forall_mem_list ?_
          intro a ha b hb
          rw [hpdepth a ha, hpdepth b hb]
        · intro a ha b hb
          have := htwo a (List.mem_cons_of_mem s ha)
          rw [hpdepth b hb]
          omega
      · intro nd hnd h hh
        have hge := hhead_ge h hh
        rcases List.mem_append.mp hnd with hnd' | hnd'
        · have := htwo nd (List.mem_cons_of_mem s hnd')
          omega
        · rw [hpdepth nd hnd']
          omega
      · intro nd hnd
        rcases List.mem_append.mp hnd with hnd' | hnd'
        · exact hI.sound nd (List.mem_cons_of_mem s hnd')
        · rw [hpushed] at hnd'
          obtain ⟨x, hx, -, rfl⟩ := mem_pushList.mp hnd'
          constructor
          · simp only [List.length_append, List.length_cons, List.length_nil]
            exact hsound_s.1.snoc hx
          · exact hflagG s.state x hx
      · intro v₀ hv₀
        rcases List.mem_cons.mp hv₀ with rfl | hv₀'
        · exact ⟨s.path.length, hsound_s.1, fun h hh => hhead_ge h hh⟩
        · obtain ⟨j, hjr, hjle⟩ := hI.visitedReach v₀ hv₀'
          refine ⟨j, hjr, fun h hh => ?_⟩
          have := hjle s rfl
          have := hhead_ge h hh
          omega
      · -- re-establish the optimal-path witness
        obtain ⟨w, hw, hwnv, hwmin, hwd, hwg, hwgmin⟩ := hI.witness
        by_cases hws : w.state = s.state
        · -- the expanded node is the witness state: advance along the optimal path
          have hkm : s.path.length = w.path.length := by
            have hk_le : w.path.length ≤ s.path.length := by
              by_contra hcon
              push_neg at hcon
              exact hwmin s.path.length hcon (hws ▸ hsound_s.1)
            have hm_le : s.path.length ≤ w.path.length := by
              rcases List.mem_cons.mp hw with rfl | hw'
              · exact le_refl _
              · exact hmle w hw'
            omega
          have hkd : w.path.length < d := by
            rcases Nat.lt_or_ge w.path.length d with h | h
            · exact h
            · exfalso
              have hdk : d - w.path.length = 0 := by omega
              obtain ⟨g, hgr, hGg⟩ := hwg
              rw [hdk] at hgr
              obtain rfl : w.state = g := hgr
              have : s.goal = true := by rw [hsound_s.2, ← hws, hGg]
              exact hg this
          obtain ⟨g, hgr, hGg⟩ := hwg
          have hsub : d - w.path.length = (d - w.path.length - 1) + 1 := by omega
          rw [hsub, hws] at hgr
          obtain ⟨x, hx, hxr⟩ := hgr
          have hxnS : x.1 ≠ s.state := by
            intro heq
            have : G g = false := by
              refine hwgmin (d - w.path.length - 1) (by omega) g ?_
              rw [hws, ← heq]
              exact hxr
            rw [this] at hGg
            exact absurd hGg (by simp)
          have hxnv : x.1 ∉ v := by
            intro hmem'
            obtain ⟨j, hjr, hjle⟩ := hI.visitedReach x.1 hmem'
            have hjm : j ≤ s.path.length := hjle s rfl
            have hreach : ReachN P.succs (j + (d - w.path.length - 1)) P.cur g :=
              hjr.trans hxr
            have : G g = false := hmin _ (by omega) g hreach
            rw [this] at hGg
            exact absurd hGg (by simp)
          have hxnv' : x.1 ∉ s.state :: v := by
            intro hmem'
            rcases List.mem_cons.mp hmem' with heq | hmem''
            · exact hxnS heq
            · exact hxnv hmem''
          refine ⟨⟨x.1, s.path ++ [x.2.1], s.cost + x.2.2.1, x.2.2.2⟩,
            List.mem_append_right rest
              (by rw [hpushed]; exact mem_pushList.mpr ⟨x, hx, hxnv', rfl⟩),
            hxnv', ?_, ?_, ?_, ?_⟩
          · intro j hj hreach
            simp only [List.length_append, List.length_cons, List.length_nil] at hj
            have hgoalr : ReachN P.succs (j + (d - w.path.length - 1)) P.cur g :=
              hreach.trans hxr
            have : G g = false := hmin _ (by omega) g hgoalr
            rw [this] at hGg
            exact absurd hGg (by simp)
          · simp only [List.length_append, List.length_cons, List.length_nil]
            omega
          · refine ⟨g, ?_, hGg⟩
            have heq : d - (⟨x.1, s.path ++ [x.2.1], s.cost + x.2.2.1, x.2.2.2⟩ :
                SNode σ α).path.length = d - w.path.length - 1 := by
              simp only [List.length_append, List.length_cons, List.length_nil]
              omega
            rw [heq]
            exact hxr
          · intro j hj g' hg'r
            simp only [List.length_append, List.length_cons, List.length_nil] at hj
            refine hwgmin (j + 1) (by omega) g' ?_
            rw [hws]
            exact ⟨x, hx, hg'r⟩
        · -- the witness is untouched
          have hwrest : w ∈ rest := by
            rcases List.mem_cons.mp hw with rfl | hw'
            · exact absurd rfl hws
            · exact hw'
          refine ⟨w, List.mem_append_left pushed hwrest, ?_, hwmin, hwd, hwg, hwgmin⟩
          intro hmem'
          rcases List.mem_cons.mp hmem' with heq | hmem''
          · exact hws heq
          · exact hwnv hmem''

theorem bfsRun_level [DecidableEq σ] {P : Problem σ α} {G : σ → Bool} {d : Nat}
    (hflagG : ∀ (s : σ) (x : Succ σ α), x ∈ P.succs s → x.2.2.2 = G x.1)
    (hmin : ∀ j, j < d → ∀ g, ReachN P.succs j P.cur g → G g = false) :
    ∀ (fuel : Nat) (c : ListConfig σ α), BfsLevelInv P G d c →
      ∀ r, bfsRun P fuel c = some r → r.1.1.length = d := by
  intro fuel
  induction fuel with
  | zero => intro c _ r hr; exact absurd hr (by simp [bfsRun])
  | succ fuel ih =>
    intro c hI r hr
    rw [bfsRun] at hr
    cases hstep : bfsStep P c with
    | inl r0 =>
      rw [hstep] at hr
      obtain rfl : r0 = r := Option.some.inj hr
      exact bfsStep_level_inl hmin hI r0 hstep
    | inr c₀ =>
      rw [hstep] at hr
      exact ih c₀ (bfsStep_level_inr hflagG hmin hI c₀ hstep) r hr

theorem bfsLevelInv_init [DecidableEq σ] {P : Problem σ α} {G : σ → Bool} {d : Nat}
    (hseedG : P.isSolved = G P.cur)
    (hd : ∃ g, ReachN P.succs d P.cur g ∧ G g = true)
    (hmin : ∀ j, j < d → ∀ g, ReachN P.succs j P.cur g → G g = false) :
    BfsLevelInv P G d (listInit P) := by
  refine ⟨?_, ?_, ?_, ?_, ?_⟩
  · simp [listInit]
  · intro nd hnd h hh
    simp only [listInit, List.mem_singleton] at hnd
    simp only [listInit, List.head?_cons] at hh
    subst hnd
    obtain rfl : _ = h := Option.some.inj hh
    omega
  · intro nd hnd
    simp only [listInit, List.mem_singleton] at hnd
    subst hnd
    exact ⟨ReachN.zero P.succs P.cur, hseedG⟩
  · intro v₀ hv₀
    exact absurd hv₀ (List.not_mem_nil v₀)
  · refine ⟨⟨P.getState, [], 0, P.isSolved⟩, by simp [listInit], ?_, ?_, ?_, ?_, ?_⟩
    · exact List.not_mem_nil _
    · intro j hj
      simp at hj
    · exact Nat.zero_le d
    · simpa using hd
    · simpa using hmin

/-- C3: on every Problem with a finite reachable state space (contained in a
Finset `R` closed under successors with branching bound `B`), uniform unit
step costs, goal flags that agree with the goal predicate `G` (as the
Problem contract of spec section 6 requires), and a nearest goal at exactly
`d` actions from the start state, `breadthSearch` terminates successfully
and the action sequence it returns has length `d`, the minimum number of
actions leading from the start state to any goal state. -/
theorem breadthSearch_min_actions [DecidableEq σ] (P : Problem σ α) (G : σ → Bool)
    (R : Finset σ) (B d : Nat)
    (hflagG : ∀ (s : σ) (x : Succ σ α), x ∈ P.succs s → x.2.2.2 = G x.1)
    (hseedG : P.isSolved = G P.cur)
    (_hunit : ∀ (s : σ) (x : Succ σ α), x ∈ P.succs s → x.2.2.1 = 1)
    (hstart : P.cur ∈ R)
    (hclosed : ∀ s ∈ R, ∀ x ∈ P.succs s, x.1 ∈ R)
    (hB : ∀ s ∈ R, (P.succs s).length ≤ B)
    (hd : ∃ g, ReachN P.succs d P.cur g ∧ G g = true)
    (hmin : ∀ j, j < d → ∀ g, ReachN P.succs j P.cur g → G g = false) :
    ∃ (fuel : Nat) (p : List α) (cost : ℕ∞) (e m t : Nat),
      breadthSearch P fuel = some ((p, cost, e), m, t) ∧ p.length = d := by
  have hterm := bfsRun_terminates hclosed hB (2 + R.card * (B + 1)) (listInit P)
    List.nodup_nil (fun v hv => absurd hv (List.not_mem_nil v))
    (by intro nd hnd
        simp only [listInit, List.mem_singleton] at hnd
        subst hnd
        exact hstart)
    (by show 1 + R.card * (B + 1) < 2 + R.card * (B + 1); omega)
  obtain ⟨r, hr⟩ := Option.isSome_iff_exists.mp hterm
  obtain ⟨⟨p, cost, e⟩, m, t⟩ := r
  refine ⟨2 + R.card * (B + 1), p, cost, e, m, t, hr, ?_⟩
  exact bfsRun_level hflagG hmin _ (listInit P)
    (bfsLevelInv_init hseedG hd hmin) _ hr

/-- A two-state problem: the unsolved start `0` has the solved state `1` as
its only successor, one action away. -/
def twoStateProb : Problem Nat Nat where
  cur := 0
  solvedFn := fun s => decide (s = 1)
  succs := fun s => if s = 0 then [(1, 1, 1, true)] else []

theorem breadthSearch_min_actions_witness :
    ∃ (fuel : Nat) (p : List Nat) (cost : ℕ∞) (e m t : Nat),
      breadthSearch twoStateProb fuel = some ((p, cost, e), m, t) ∧ p.length = 1 := by
  refine breadthSearch_min_actions twoStateProb (fun s => decide (s = 1)) {0, 1} 1 1
    ?_ (by decide) ?_ (by decide) ?_ ?_ ?_ ?_
  · intro s x hx
    by_cases hs : s = 0
    · subst hs
      simp only [twoStateProb, if_true, eq_self_iff_true, List.mem_singleton] at hx
      subst hx
      rfl
    · simp [twoStateProb, hs] at hx
  · intro s x hx
    by_cases hs : s = 0
    · subst hs
      simp only [twoStateProb, if_true, eq_self_iff_true, List.mem_singleton] at hx
      subst hx
      rfl
    · simp [twoStateProb, hs] at hx
  · intro s hs x hx
    by_cases h0 : s = 0
    · subst h0
      simp only [twoStateProb, if_true, eq_self_iff_true, List.mem_singleton] at hx
      subst hx
      decide
    · simp [twoStateProb, h0] at hx
  · intro s hs
    by_cases h0 : s = 0
    · subst h0; decide
    · simp [twoStateProb, h0]
  · exact ⟨1, by decide, by decide⟩
  · intro j hj g hr
    have hj0 : j = 0 := by omega
    subst hj0
    have : (0 : Nat) = g := hr
    subst this
    decide

/-! ## The sliding puzzle

The puzzle state string produced by `getState` and parsed back by `setState`
is an injective serialization of the tile grid, so the grid itself — a list
of rows of tile numbers — serves as the opaque state key. -/

/-- A tile grid: the parsed form of the state string, one list of tile
numbers per row. -/
abbrev Board := List (List Nat)

/-- `board[rc.1][rc.2]`, `none` when an index is out of range (an
`IndexError` in the source). -/
def getTile (b : Board) (rc : Nat × Nat) : Option Nat :=
  (b.get? rc.1).bind fun row => row.get? rc.2

/-- Write `v` at `board[rc.1][rc.2]` (out-of-range writes cannot occur at the
source's call site, which checks bounds first). -/
def setTile (b : Board) (rc : Nat × Nat) (v : Nat) : Board :=
  b.set rc.1 (((b.get? rc.1).getD []).set rc.2 v)

/-- `SlidingPuzzle`: grid dimensions, tile grid, position of the blank tile,
index of the blank tile (the constructor fixes it to `0`), and the
incrementally maintained count of misplaced tiles.  The count is an `Int`
because Python decrements it transiently. -/
structure SlidingPuzzle where
  numR : Nat
  numC : Nat
  board : Board
  pos : Nat × Nat
  blank : Nat
  numMisplaced : Int
deriving DecidableEq, Repr

/-- The inner column loop of `setState` over one row: validates each tile
(range and duplication, using the list of already seen tiles for the
source's `seen` boolean array), records the blank's position and counts the
misplaced tiles with the running cell index `place`. -/
def parseRow (total blank : Nat) (i : Nat) :
    List Nat → Nat → Nat → List Nat → Option (Nat × Nat) → Nat →
    Option (List Nat × Option (Nat × Nat) × Nat)
  | [], _, _, seen, acc, mis => some (seen, acc, mis)
  | tile :: rest, j, place, seen, acc, mis =>
    if total ≤ tile then none
    else if tile ∈ seen then none
    else
      parseRow total blank i rest (j + 1) (place + 1) (tile :: seen)
        (if tile = blank then some (i, j) else acc)
        (if tile ≠ place then mis + 1 else mis)

/-- The outer row loop of `setState`: checks each row's length against the
corresponding row of the current board and folds `parseRow` over the rows. -/
def parseBoard (total blank : Nat) :
    Board → Board → Nat → Nat → List Nat → Option (Nat × Nat) → Nat →
    Option (Option (Nat × Nat) × Nat)
  | [], _, _, _, _, acc, mis => some (acc, mis)
  | _ :: _, [], _, _, _, _, _ => none
  | row :: rows, curRow :: cur', i, place, seen, acc, mis =>
    if row.length ≠ curRow.length then none
    else
      match parseRow total blank i row 0 place seen acc mis with
      | none => none
      | some (seen', acc', mis') =>
        parseBoard total blank rows cur' (i + 1) (place + row.length) seen' acc' mis'

/-- `getState`: the puzzle's state key (the serialized grid). -/
def SlidingPuzzle.getState (p : SlidingPuzzle) : Board := p.board

/-- `setState(state)`: validates the given grid (row count, per-row length
against the current board, tile range, duplicate tiles) and installs it,
recomputing the blank position and the misplaced count from scratch.  A
grid that passes validation contains every tile exactly once, hence also the
blank; a blankless grid (where the source would store `None` as the
position) is rejected here. -/
def SlidingPuzzle.setState (p : SlidingPuzzle) (state : Board) :
    Option SlidingPuzzle :=
  if state.length ≠ p.numR then none
  else
    match parseBoard (p.numR * p.numC) p.blank state p.board 0 0 [] none 0 with
    | none => none
    | some (newPos, mis) =>
      match newPos with
      | none => none
      | some pos' =>
        some { p with pos := pos', numMisplaced := (mis : Int), board := state }

/-- `move(dir)`: checks that `dir` is one of the four directions and that
the blank's new position is on the board, then swaps the blank with the
neighbouring tile, adjusts the misplaced count for the two affected tiles,
and returns the new puzzle with the move's cost `1`; illegal moves raise
(`none`). -/
def SlidingPuzzle.move (p : SlidingPuzzle) (dir : Int × Int) :
    Option (SlidingPuzzle × Nat) :=
  if dir ∉ [((-1 : Int), (0 : Int)), (0, -1), (0, 1), (1, 0)] then none
  else
    let newPosI : Int × Int := ((p.pos.1 : Int) + dir.1, (p.pos.2 : Int) + dir.2)
    if newPosI.1 < 0 ∨ (p.numR : Int) ≤ newPosI.1 ∨
        newPosI.2 < 0 ∨ (p.numC : Int) ≤ newPosI.2 then none
    else
      let newPos : Nat × Nat := (newPosI.1.toNat, newPosI.2.toNat)
      match getTile p.board newPos with
      | none => none
      | some tile =>
        let blankPos : Nat × Nat := (p.blank / p.numC, p.blank % p.numC)
        let mis1 := if p.pos = blankPos then p.numMisplaced + 1 else p.numMisplaced
        let mis2 := if newPos = blankPos then mis1 - 1 else mis1
        let mis3 := if tile = newPos.1 * p.numC + newPos.2 then mis2 + 1 else mis2
        let mis4 := if tile = p.pos.1 * p.numC + p.pos.2 then mis3 - 1 else mis3
        let board' := setTile (setTile p.board p.pos tile) newPos p.blank
        some ({ p with board := board', pos := newPos, numMisplaced := mis4 }, 1)

/-- `legalMoves`: the on-board directions, tried in the order up, down,
left, right. -/
def SlidingPuzzle.legalMoves (p : SlidingPuzzle) : List (Int × Int) :=
  (if 0 < p.pos.1 then [((-1 : Int), (0 : Int))] else []) ++
  (if p.pos.1 < p.numR - 1 then [((1 : Int), (0 : Int))] else []) ++
  (if 0 < p.pos.2 then [((0 : Int), (-1 : Int))] else []) ++
  (if p.pos.2 < p.numC - 1 then [((0 : Int), (1 : Int))] else [])

/-- `isSolved`: no tile is misplaced. -/
def SlidingPuzzle.isSolved (p : SlidingPuzzle) : Bool :=
  p.numMisplaced == 0

def SlidingPuzzle.getPos (p : SlidingPuzzle) : Nat × Nat := p.pos

def SlidingPuzzle.getDim (p : SlidingPuzzle) : Nat × Nat := (p.numR, p.numC)

/-- The loop body of `getSuccessors`: perform each legal move from the state
`state`, record `(state string, action, step cost, goal)`, and rewind to
`state` before the next move. -/
def succLoop (state : Board) :
    SlidingPuzzle → List (Int × Int) → List (Board × (Int × Int) × Nat × Bool) →
    Option (List (Board × (Int × Int) × Nat × Bool) × SlidingPuzzle)
  | p, [], acc => some (acc, p)
  | p, a :: rest, acc =>
    match p.move a with
    | none => none
    | some (p2, cost) =>
      match p2.setState state with
      | none => none
      | some p3 =>
        succLoop state p3 rest (acc ++ [(p2.getState, a, cost, p2.isSolved)])

/-- `getSuccessors(state)`: remembers the current state, temporarily sets
the puzzle to `state`, generates one successor per legal move, and restores
the remembered state; returns the successor list together with the puzzle
object after the call (whose observable state claim C10 is about). -/
def SlidingPuzzle.getSuccessors (p : SlidingPuzzle) (state : Board) :
    Option (List (Board × (Int × Int) × Nat × Bool) × SlidingPuzzle) :=
  let currentState := p.getState
  match p.setState state with
  | none => none
  | some p1 =>
    match succLoop state p1 p1.legalMoves [] with
    | none => none
    | some (succ, pLast) =>
      match pLast.setState currentState with
      | none => none
      | some pFinal => some (succ, pFinal)

/-! ## Validity of puzzle states -/

/-- The number of misplaced tiles in the cells of `l`, whose first cell has
the running index `place` (the from-scratch count that `setState` computes). -/
def countMisplacedFrom : Nat → List Nat → Nat
  | _, [] => 0
  | place, t :: rest => (if t = place then 0 else 1) + countMisplacedFrom (place + 1) rest

/-- The number of misplaced tiles of a grid. -/
def countMisplaced (b : Board) : Nat := countMisplacedFrom 0 b.flatten

/-- The grid has `r` rows of `c` cells each. -/
def BoardShape (r c : Nat) (b : Board) : Prop :=
  b.length = r ∧ ∀ row ∈ b, row.length = c

/-- The grid's cells hold pairwise distinct tiles below `total`. -/
def BoardTiles (total : Nat) (b : Board) : Prop :=
  b.flatten.Nodup ∧ ∀ t ∈ b.flatten, t < total

/-- A well-formed puzzle: the blank tile is `0` (as the constructor sets it),
the dimensions are positive, the grid has the right shape and carries each
tile exactly once, `pos` is the in-bounds position of the blank, and the
incrementally maintained misplaced counter agrees with the from-scratch
count. -/
def SlidingPuzzle.Valid (p : SlidingPuzzle) : Prop :=
  p.blank = 0 ∧ 0 < p.numR ∧ 0 < p.numC ∧
  BoardShape p.numR p.numC p.board ∧ BoardTiles (p.numR * p.numC) p.board ∧
  p.pos.1 < p.numR ∧ p.pos.2 < p.numC ∧
  getTile p.board p.pos = some p.blank ∧
  p.numMisplaced = (countMisplaced p.board : Int)

instance SlidingPuzzle.Valid.instDecidable (p : SlidingPuzzle) :
    Decidable p.Valid := by
  unfold SlidingPuzzle.Valid BoardShape BoardTiles
  infer_instance

theorem countMisplacedFrom_append (l₁ l₂ : List Nat) :
    ∀ place, countMisplacedFrom place (l₁ ++ l₂) =
      countMisplacedFrom place l₁ + countMisplacedFrom (place + l₁.length) l₂ := by
  induction l₁ with
  | nil => intro place; simp [countMisplacedFrom]
  | cons t rest ih =>
    intro place
    show (if t = place then 0 else 1) + countMisplacedFrom (place + 1) (rest ++ l₂) =
      ((if t = place then 0 else 1) + countMisplacedFrom (place + 1) rest) +
        countMisplacedFrom (place + (rest.length + 1)) l₂
    rw [ih (place + 1)]
    have harith : place + 1 + rest.length = place + (rest.length + 1) := by omega
    rw [harith]
    omega

theorem countMisplacedFrom_set :
    ∀ (l : List Nat) (place k v old : Nat), l.get? k = some old →
      countMisplacedFrom place (l.set k v) + (if old = place + k then 0 else 1) =
        countMisplacedFrom place l + (if v = place + k then 0 else 1) := by
  intro l
  induction l with
  | nil => intro place k v old h; simp at h
  | cons t rest ih =>
    intro place k v old h
    cases k with
    | zero =>
      obtain rfl : t = old := by simpa using h
      simp only [List.set_cons_zero, countMisplacedFrom, Nat.add_zero]
      omega
    | succ k =>
      simp only [List.get?_cons_succ] at h
      simp only [List.set_cons_succ, countMisplacedFrom]
      have := ih (place + 1) k v old h
      have harith : place + 1 + k = place + (k + 1) := by omega
      rw [harith] at this
      omega

theorem count_set :
    ∀ (l : List Nat) (k old : Nat), l.get? k = some old → ∀ (v a : Nat),
      (l.set k v).count a + (if old = a then 1 else 0) =
        l.count a + (if v = a then 1 else 0) := by
  intro l
  induction l with
  | nil => intro k old h; simp at h
  | cons t rest ih =>
    intro k old h v a
    cases k with
    | zero =>
      have ht : t = old := by simpa using h
      subst ht
      simp only [List.set_cons_zero, List.count_cons]
      by_cases hva : a = v <;> by_cases hta : a = t <;> simp [hva, hta] <;> omega
    | succ k =>
      simp only [List.get?_cons_succ] at h
      simp only [List.set_cons_succ, List.count_cons]
      have := ih k old h v a
      omega

theorem set_set_perm {l : List Nat} {i j x y : Nat} (hij : i ≠ j)
    (hi : l.get? i = some x) (hj : l.get? j = some y) :
    ((l.set i y).set j x).Perm l := by
  have hj' : (l.set i y).get? j = some y := by
    rw [List.get?_set_ne _ _ hij]
    exact hj
  rw [List.perm_iff_count]
  intro a
  have h1 := count_set (l.set i y) j y hj' x a
  have h2 := count_set l i x hi y a
  omega

theorem flatten_length {b : Board} {r c : Nat} (hshape : BoardShape r c b) :
    b.flatten.length = r * c := by
  obtain ⟨hr, hc⟩ := hshape
  subst hr
  induction b with
  | nil => simp
  | cons row rest ih =>
    simp only [List.flatten_cons, List.length_append, List.length_cons]
    rw [hc row (List.mem_cons_self row rest),
      ih (fun row' h => hc row' (List.mem_cons_of_mem row h))]
    ring

theorem flatten_get? {b : Board} {r c : Nat} (hshape : BoardShape r c b) :
    ∀ (i j : Nat), i < r → j < c →
      b.flatten.get? (i * c + j) = getTile b (i, j) := by
  obtain ⟨hr, hc⟩ := hshape
  subst hr
  induction b with
  | nil => intro i j hi hj; simp at hi
  | cons row rest ih =>
    intro i j hi hj
    have hrow : row.length = c := hc row (List.mem_cons_self row rest)
    cases i with
    | zero =>
      simp only [Nat.zero_mul, Nat.zero_add, List.flatten_cons]
      rw [List.get?_append (by omega)]
      simp [getTile]
    | succ i =>
      simp only [List.flatten_cons]
      rw [List.get?_append_right (by
        have : c ≤ (i + 1) * c := Nat.le_mul_of_pos_left c (by omega)
        omega)]
      have harith : (i + 1) * c + j - row.length = i * c + j := by
        rw [hrow]
        have : (i + 1) * c = i * c + c := by ring
        omega
      rw [harith]
      have := ih (fun row' h => hc row' (List.mem_cons_of_mem row h))
        i j (by simpa using hi) hj
      rw [this]
      simp [getTile]

theorem set_append_left (l₁ l₂ : List γ) :
    ∀ (n : Nat) (a : γ), n < l₁.length →
      (l₁ ++ l₂).set n a = l₁.set n a ++ l₂ := by
  induction l₁ with
  | nil => intro n a h; simp at h
  | cons x rest ih =>
    intro n a h
    cases n with
    | zero => simp
    | succ n =>
      simp only [List.cons_append, List.set_cons_succ]
      rw [ih n a (by simpa using h)]

theorem set_append_right (l₁ l₂ : List γ) :
    ∀ (n : Nat) (a : γ), l₁.length ≤ n →
      (l₁ ++ l₂).set n a = l₁ ++ l₂.set (n - l₁.length) a := by
  induction l₁ with
  | nil => intro n a h; simp
  | cons x rest ih =>
    intro n a h
    cases n with
    | zero => simp at h
    | succ n =>
      simp only [List.cons_append, List.set_cons_succ, List.length_cons]
      rw [ih n a (by simpa using h)]
      simp [Nat.succ_sub_succ]

theorem flatten_set {b : Board} {r c : Nat} (hshape : BoardShape r c b) :
    ∀ (i j : Nat) (v : Nat), i < r → j < c →
      (setTile b (i, j) v).flatten = b.flatten.set (i * c + j) v := by
  obtain ⟨hr, hc⟩ := hshape
  subst hr
  induction b with
  | nil => intro i j v hi hj; simp at hi
  | cons row rest ih =>
    intro i j v hi hj
    have hrow : row.length = c := hc row (List.mem_cons_self row rest)
    cases i with
    | zero =>
      simp only [setTile, List.get?_cons_zero, Option.getD_some, Nat.zero_mul,
        Nat.zero_add, List.set_cons_zero, List.flatten_cons]
      rw [set_append_left row rest.flatten j v (by omega)]
    | succ i =>
      simp only [setTile, List.get?_cons_succ, List.set_cons_succ, List.flatten_cons]
      rw [set_append_right row rest.flatten ((i + 1) * c + j) v (by
        have : c ≤ (i + 1) * c := Nat.le_mul_of_pos_left c (by omega)
        omega)]
      have harith : (i + 1) * c + j - row.length = i * c + j := by
        rw [hrow]
        have : (i + 1) * c = i * c + c := by ring
        omega
      rw [harith]
      have := ih (fun row' h => hc row' (List.mem_cons_of_mem row h)) i j v
        (by simpa using hi) hj
      simp only [setTile] at this
      rw [← this]

theorem setTile_shape {b : Board} {r c : Nat} (hshape : BoardShape r c b)
    {i : Nat} (hi : i < r) (j v : Nat) : BoardShape r c (setTile b (i, j) v) := by
  obtain ⟨hr, hc⟩ := hshape
  refine ⟨by simp [setTile, hr], ?_⟩
  intro row hrow
  rcases List.mem_or_eq_of_mem_set hrow with h | h
  · exact hc row h
  · subst h
    rw [List.length_set]
    cases hbi : b.get? i with
    | none =>
      exfalso
      rw [List.get?_eq_none] at hbi
      omega
    | some r0 =>
      simp only [hbi, Option.getD_some]
      exact hc r0 (List.get?_mem hbi)

theorem cell_index_inj {c i₁ j₁ i₂ j₂ : Nat} (h1 : j₁ < c) (h2 : j₂ < c)
    (h : i₁ * c + j₁ = i₂ * c + j₂) : i₁ = i₂ ∧ j₁ = j₂ := by
  have hi : i₁ = i₂ := by
    rcases Nat.lt_trichotomy i₁ i₂ with hlt | heq | hgt
    · exfalso
      have hm : (i₁ + 1) * c ≤ i₂ * c := Nat.mul_le_mul_right c hlt
      have he : (i₁ + 1) * c = i₁ * c + c := by ring
      omega
    · exact heq
    · exfalso
      have hm : (i₂ + 1) * c ≤ i₁ * c := Nat.mul_le_mul_right c hgt
      have he : (i₂ + 1) * c = i₂ * c + c := by ring
      omega
  subst hi
  omega

theorem getTile_inj {b : Board} {r c : Nat} (hshape : BoardShape r c b)
    (hnd : b.flatten.Nodup) {i₁ j₁ i₂ j₂ v : Nat} (hi₁ : i₁ < r) (hj₁ : j₁ < c)
    (hi₂ : i₂ < r) (hj₂ : j₂ < c)
    (h₁ : getTile b (i₁, j₁) = some v) (h₂ : getTile b (i₂, j₂) = some v) :
    i₁ = i₂ ∧ j₁ = j₂ := by
  rw [← flatten_get? hshape i₁ j₁ hi₁ hj₁] at h₁
  rw [← flatten_get? hshape i₂ j₂ hi₂ hj₂] at h₂
  have hlt : i₁ * c + j₁ < b.flatten.length := by
    rcases List.get?_eq_some.mp h₁ with ⟨hlt, -⟩
    exact hlt
  have hidx := List.get?_inj hlt hnd (h₁.trans h₂.symm)
  exact cell_index_inj hj₁ hj₂ hidx

theorem valid_ext {p q : SlidingPuzzle} (hp : p.Valid) (hq : q.Valid)
    (hR : p.numR = q.numR) (hC : p.numC = q.numC) (hb : p.board = q.board) :
    p = q := by
  obtain ⟨pb, prr, pcc, psh, pti, pp1, pp2, pg, pm⟩ := hp
  obtain ⟨qb, qrr, qcc, qsh, qti, qp1, qp2, qg, qm⟩ := hq
  have hpos : p.pos = q.pos := by
    have hg1 : getTile q.board (p.pos.1, p.pos.2) = some 0 := by
      rw [← hb]
      rw [pb] at pg
      exact pg
    have hg2 : getTile q.board (q.pos.1, q.pos.2) = some 0 := by
      rw [qb] at qg
      exact qg
    have := getTile_inj qsh qti.1 (by omega) (by omega) qp1 qp2 hg1 hg2
    exact Prod.ext this.1 this.2
  obtain ⟨R1, C1, B1, P1, K1, M1⟩ := p
  obtain ⟨R2, C2, B2, P2, K2, M2⟩ := q
  simp only at hR hC hb hpos pb qb pm qm
  subst hR hC hb hpos pb
  simp only [SlidingPuzzle.mk.injEq, true_and]
  exact ⟨qb.symm, by rw [pm, qm]⟩

theorem mem_flatten_of_lt {b : Board} {r c : Nat} (hshape : BoardShape r c b)
    (hti : BoardTiles (r * c) b) {k : Nat} (hk : k < r * c) : k ∈ b.flatten := by
  have hlen := flatten_length hshape
  have hsub : b.flatten.toFinset ⊆ Finset.range (r * c) := fun x hx =>
    Finset.mem_range.mpr (hti.2 x (List.mem_toFinset.mp hx))
  have hcard : (Finset.range (r * c)).card ≤ b.flatten.toFinset.card := by
    rw [List.toFinset_card_of_nodup hti.1, hlen, Finset.card_range]
  have heq := Finset.eq_of_subset_of_card_le hsub hcard
  have : k ∈ b.flatten.toFinset := by
    rw [heq]
    exact Finset.mem_range.mpr hk
  exact List.mem_toFinset.mp this

/-! ## Characterization of setState -/

theorem parseRow_isSome {total blank i : Nat} :
    ∀ (row : List Nat) (j place : Nat) (seen : List Nat)
      (acc : Option (Nat × Nat)) (mis : Nat),
      (∀ t ∈ row, t < total) → (∀ t ∈ row, t ∉ seen) → row.Nodup →
      (parseRow total blank i row j place seen acc mis).isSome := by
  intro row
  induction row with
  | nil => intro j place seen acc mis _ _ _; simp [parseRow]
  | cons t rest ih =>
    intro j place seen acc mis hlt hns hnd
    rw [parseRow]
    rw [if_neg (by simpa using hlt t (List.mem_cons_self t rest))]
    rw [if_neg (hns t (List.mem_cons_self t rest))]
    refine ih (j + 1) (place + 1) (t :: seen) _ _
      (fun u hu => hlt u (List.mem_cons_of_mem t hu)) ?_
      (List.nodup_cons.mp hnd).2
    intro u hu hmem
    rcases List.mem_cons.mp hmem with rfl | hmem'
    · exact (List.nodup_cons.mp hnd).1 hu
    · exact hns u (List.mem_cons_of_mem t hu) hmem'

theorem parseRow_some {total blank i : Nat} :
    ∀ (row : List Nat) (j place : Nat) (seen : List Nat)
      (acc : Option (Nat × Nat)) (mis : Nat)
      {out : List Nat × Option (Nat × Nat) × Nat},
      parseRow total blank i row j place seen acc mis = some out →
      out.1 = row.reverse ++ seen ∧
      out.2.2 = mis + countMisplacedFrom place row ∧
      (∀ t ∈ row, t < total) ∧ (∀ t ∈ row, t ∉ seen) ∧ row.Nodup ∧
      (blank ∈ row → ∃ jb, jb < row.length ∧ row.get? jb = some blank ∧
        out.2.1 = some (i, j + jb)) ∧
      (blank ∉ row → out.2.1 = acc) := by
  intro row
  induction row with
  | nil =>
    intro j place seen acc mis out h
    obtain rfl : (seen, acc, mis) = out := by simpa [parseRow] using h
    simp [countMisplacedFrom]
  | cons t rest ih =>
    intro j place seen acc mis out h
    rw [parseRow] at h
    by_cases h1 : total ≤ t
    · rw [if_pos h1] at h; exact absurd h (by simp)
    rw [if_neg h1] at h
    by_cases h2 : t ∈ seen
    · rw [if_pos h2] at h; exact absurd h (by simp)
    rw [if_neg h2] at h
    obtain ⟨hseen, hmis, hlt, hns, hnd, hin, hout⟩ := ih (j + 1) (place + 1)
      (t :: seen) _ _ h
    have htrest : t ∉ rest := by
      intro hmem
      exact hns t hmem (List.mem_cons_self t seen)
    refine ⟨?_, ?_, ?_, ?_, ?_, ?_, ?_⟩
    · rw [hseen]
      simp
    · rw [hmis]
      show _ = mis + ((if t = place then 0 else 1) + countMisplacedFrom (place + 1) rest)
      by_cases htp : t = place <;> simp [htp] <;> omega
    · intro u hu
      rcases List.mem_cons.mp hu with rfl | hu'
      · omega
      · exact hlt u hu'
    · intro u hu hmem
      rcases List.mem_cons.mp hu with rfl | hu'
      · exact h2 hmem
      · exact hns u hu' (List.mem_cons_of_mem t hmem)
    · exact List.nodup_cons.mpr ⟨htrest, hnd⟩
    · intro hbmem
      rcases List.mem_cons.mp hbmem with rfl | hbmem'
      · have hbrest : blank ∉ rest := htrest
        have hacc := hout hbrest
        refine ⟨0, by simp, by simp, ?_⟩
        rw [hacc, if_pos rfl]
        simp
      · obtain ⟨jb, hjb, hget, hacc⟩ := hin hbmem'
        refine ⟨jb + 1, by simpa using hjb, by simpa using hget, ?_⟩
        rw [hacc]
        have harith : j + 1 + jb = j + (jb + 1) := by omega
        rw [harith]
    · intro hbmem
      have hbt : t ≠ blank := fun heq => hbmem (heq ▸ List.mem_cons_self t rest)
      have hbrest : blank ∉ rest := fun hmem => hbmem (List.mem_cons_of_mem t hmem)
      rw [hout hbrest, if_neg hbt]

theorem parseBoard_isSome {total blank : Nat} :
    ∀ (rows cur : Board) (i place : Nat) (seen : List Nat)
      (acc : Option (Nat × Nat)) (mis : Nat),
      (∀ t ∈ rows.flatten, t < total) → (∀ t ∈ rows.flatten, t ∉ seen) →
      rows.flatten.Nodup →
      List.Forall₂ (fun (r c : List Nat) => r.length = c.length) rows
        (cur.take rows.length) →
      (parseBoard total blank rows cur i place seen acc mis).isSome := by
  intro rows
  induction rows with
  | nil => intro cur i place seen acc mis _ _ _ _; simp [parseBoard]
  | cons row rest ih =>
    intro cur i place seen acc mis hlt hns hnd hf
    cases cur with
    | nil => simp at hf
    | cons curRow cur' =>
      simp only [List.length_cons, List.take_succ_cons] at hf
      obtain ⟨hlen, hf'⟩ := List.forall₂_cons.mp hf
      rw [parseBoard, if_neg (by omega)]
      have hrowsome : (parseRow total blank i row 0 place seen acc mis).isSome :=
        parseRow_isSome row 0 place seen acc mis
          (fun t ht => hlt t (by simp [ht]))
          (fun t ht => hns t (by simp [ht]))
          ((List.nodup_append.mp (by simpa using hnd)).1)
      obtain ⟨out, hout⟩ := Option.isSome_iff_exists.mp hrowsome
      obtain ⟨r1, r2, r3⟩ := out
      rw [hout]
      obtain ⟨hseen, -, -, -, -, -, -⟩ := parseRow_some row 0 place seen acc mis hout
      dsimp only at hseen
      refine ih cur' (i + 1) (place + row.length) r1 r2 r3
        (fun t ht => hlt t (by simp [ht])) ?_
        ((List.nodup_append.mp (by simpa using hnd)).2.1) hf'
      intro t ht
      rw [hseen]
      intro hmem
      rcases List.mem_append.mp hmem with hmem' | hmem'
      · have htr : t ∈ row := List.mem_reverse.mp hmem'
        exact (List.nodup_append.mp (by simpa using hnd)).2.2 htr ht
      · exact hns t (by simp [ht]) hmem'

theorem parseBoard_some {total blank : Nat} :
    ∀ (rows cur : Board) (i place : Nat) (seen : List Nat)
      (acc : Option (Nat × Nat)) (mis : Nat) {out : Option (Nat × Nat) × Nat},
      parseBoard total blank rows cur i place seen acc mis = some out →
      out.2 = mis + countMisplacedFrom place rows.flatten ∧
      (∀ t ∈ rows.flatten, t < total) ∧ (∀ t ∈ rows.flatten, t ∉ seen) ∧
      rows.flatten.Nodup ∧
      List.Forall₂ (fun (r c : List Nat) => r.length = c.length) rows
        (cur.take rows.length) ∧
      (blank ∈ rows.flatten → ∃ ib jb row, rows.get? ib = some row ∧
        jb < row.length ∧ row.get? jb = some blank ∧ out.1 = some (i + ib, jb)) ∧
      (blank ∉ rows.flatten → out.1 = acc) := by
  intro rows
  induction rows with
  | nil =>
    intro cur i place seen acc mis out h
    obtain rfl : (acc, mis) = out := by simpa [parseBoard] using h
    simp [countMisplacedFrom]
  | cons row rest ih =>
    intro cur i place seen acc mis out h
    cases cur with
    | nil => exact absurd h (by simp [parseBoard])
    | cons curRow cur' =>
      rw [parseBoard] at h
      by_cases hlen : row.length ≠ curRow.length
      · rw [if_pos hlen] at h; exact absurd h (by simp)
      rw [if_neg hlen] at h
      push_neg at hlen
      cases hrow : parseRow total blank i row 0 place seen acc mis with
      | none => rw [hrow] at h; exact absurd h (by simp)
      | some out1 =>
        rw [hrow] at h
        obtain ⟨r1, r2, r3⟩ := out1
        obtain ⟨hseen, hmis, hltr, hnsr, hndr, hinr, houtr⟩ :=
          parseRow_some row 0 place seen acc mis hrow
        dsimp only at hseen hmis hinr houtr h
        obtain ⟨hmis2, hlt2, hns2, hnd2, hf2, hin2, hout2⟩ := ih cur' (i + 1)
          (place + row.length) r1 r2 r3 h
        have hrestns : ∀ t ∈ rest.flatten, t ∉ seen ∧ t ∉ row := by
          intro t ht
          have := hns2 t ht
          rw [hseen] at this
          constructor
          · intro hmem; exact this (List.mem_append_right _ hmem)
          · intro hmem
            exact this (List.mem_append_left _ (List.mem_reverse.mpr hmem))
        refine ⟨?_, ?_, ?_, ?_, ?_, ?_, ?_⟩
        · rw [hmis2, hmis]
          simp only [List.flatten_cons, countMisplacedFrom_append]
          omega
        · intro t ht
          rw [List.flatten_cons] at ht
          rcases List.mem_append.mp ht with ht' | ht'
          · exact hltr t ht'
          · exact hlt2 t ht'
        · intro t ht
          rw [List.flatten_cons] at ht
          rcases List.mem_append.mp ht with ht' | ht'
          · exact hnsr t ht'
          · exact (hrestns t ht').1
        · rw [List.flatten_cons, List.nodup_append]
          exact ⟨hndr, hnd2, fun t htr htf => (hrestns t htf).2 htr⟩
        · simp only [List.length_cons, List.take_succ_cons]
          exact List.forall₂_cons.mpr ⟨hlen, hf2⟩
        · intro hbmem
          rw [List.flatten_cons] at hbmem
          rcases List.mem_append.mp hbmem with hb' | hb'
          · -- the blank is in this row; it cannot recur in the rest
            obtain ⟨jb, hjb, hget, hacc1⟩ := hinr hb'
            have hbrest : blank ∉ rest.flatten := fun hmem => (hrestns blank hmem).2 hb'
            have := hout2 hbrest
            rw [hacc1] at this
            exact ⟨0, jb, row, by simp, hjb, hget, by rw [this]; simp⟩
          · obtain ⟨ib, jb, row', hget1, hjb, hget2, hacc⟩ := hin2 hb'
            refine ⟨ib + 1, jb, row', by simpa using hget1, hjb, hget2, ?_⟩
            rw [hacc]
            congr 2
            omega
        · intro hbmem
          rw [List.flatten_cons] at hbmem
          have hb1 : blank ∉ row := fun hmem =>
            hbmem (List.mem_append_left _ hmem)
          have hb2 : blank ∉ rest.flatten := fun hmem =>
            hbmem (List.mem_append_right _ hmem)
          rw [hout2 hb2, houtr hb1]

theorem forall₂_len_of_shapes {c : Nat} :
    ∀ {xs ys : Board}, xs.length = ys.length →
      (∀ r ∈ xs, r.length = c) → (∀ r ∈ ys, r.length = c) →
      List.Forall₂ (fun (r s : List Nat) => r.length = s.length) xs ys := by
  intro xs
  induction xs with
  | nil =>
    intro ys hlen _ _
    obtain rfl : ys = [] := by
      cases ys with
      | nil => rfl
      | cons y ys => simp at hlen
    exact List.Forall₂.nil
  | cons x xs ih =>
    intro ys hlen hx hy
    cases ys with
    | nil => simp at hlen
    | cons y ys =>
      refine List.Forall₂.cons ?_ (ih (by simpa using hlen)
        (fun r hr => hx r (List.mem_cons_of_mem x hr))
        (fun r hr => hy r (List.mem_cons_of_mem y hr)))
      rw [hx x (List.mem_cons_self x xs), hy y (List.mem_cons_self y ys)]

theorem rows_len_of_forall₂ {c : Nat} :
    ∀ {xs ys : Board},
      List.Forall₂ (fun (r s : List Nat) => r.length = s.length) xs ys →
      (∀ s ∈ ys, s.length = c) → ∀ r ∈ xs, r.length = c := by
  intro xs ys hf
  induction hf with
  | nil => intro _ r hr; exact absurd hr (List.not_mem_nil r)
  | cons h _ ih =>
    intro hy r hr
    rcases List.mem_cons.mp hr with rfl | hr'
    · rw [h]
      exact hy _ (List.mem_cons_self _ _)
    · exact ih (fun s hs => hy s (List.mem_cons_of_mem _ hs)) r hr'

/-- On a well-formed puzzle, a successful `setState` installs exactly the
given grid: the dimensions are untouched, the grid passed all validations,
the misplaced counter holds the from-scratch count, and the result is again
well-formed. -/
theorem setState_some {p : SlidingPuzzle} {b : Board} {p' : SlidingPuzzle}
    (hv : p.Valid) (h : p.setState b = some p') :
    p'.numR = p.numR ∧ p'.numC = p.numC ∧ p'.blank = p.blank ∧ p'.board = b ∧
    BoardShape p.numR p.numC b ∧ BoardTiles (p.numR * p.numC) b ∧
    p'.numMisplaced = (countMisplaced b : Int) ∧ p'.Valid := by
  obtain ⟨hblank, hR, hC, hsh, hti, hp1, hp2, hg, hm⟩ := hv
  unfold SlidingPuzzle.setState at h
  by_cases hlen : b.length ≠ p.numR
  · rw [if_pos hlen] at h; exact absurd h (by simp)
  rw [if_neg hlen] at h
  push_neg at hlen
  cases hpb : parseBoard (p.numR * p.numC) p.blank b p.board 0 0 [] none 0 with
  | none => rw [hpb] at h; exact absurd h (by simp)
  | some out =>
    rw [hpb] at h
    obtain ⟨acc', mis'⟩ := out
    obtain ⟨hmis, hlt, -, hnd, hf, hbin, -⟩ := parseBoard_some b p.board 0 0 [] none 0 hpb
    dsimp only at hmis hbin h
    cases acc' with
    | none => exact absurd h (by simp)
    | some pos' =>
      obtain rfl : _ = p' := by simpa using h
      have hshape : BoardShape p.numR p.numC b := by
        refine ⟨hlen, ?_⟩
        have htake : p.board.take b.length = p.board := by
          rw [hlen, ← hsh.1]
          simp
        rw [htake] at hf
        exact rows_len_of_forall₂ hf hsh.2
      have htiles : BoardTiles (p.numR * p.numC) b := ⟨hnd, hlt⟩
      have hbmem : p.blank ∈ b.flatten := by
        rw [hblank]
        exact mem_flatten_of_lt hshape htiles (by positivity)
      obtain ⟨ib, jb, row, hrow, hjb, hgetj, hacc⟩ := hbin hbmem
      obtain rfl : pos' = (ib, jb) := by simpa using hacc
      have hib : ib < p.numR := by
        by_contra hge
        rw [List.get?_eq_none.mpr (by omega)] at hrow
        exact absurd hrow (by simp)
      have hjb' : jb < p.numC := by
        rw [hshape.2 row (List.get?_mem hrow)] at hjb
        exact hjb
      refine ⟨rfl, rfl, rfl, rfl, hshape, htiles, by simp [hmis, countMisplaced], ?_⟩
      refine ⟨hblank, hR, hC, hshape, htiles, hib, hjb', ?_, by simp [hmis, countMisplaced]⟩
      show getTile b (ib, jb) = some p.blank
      unfold getTile
      rw [hrow]
      simpa using hgetj

theorem setState_isSome {p : SlidingPuzzle} (hv : p.Valid) {b : Board}
    (hsh : BoardShape p.numR p.numC b) (hti : BoardTiles (p.numR * p.numC) b) :
    (p.setState b).isSome := by
  obtain ⟨hblank, hR, hC, hpsh, hpti, hp1, hp2, hg, hm⟩ := hv
  unfold SlidingPuzzle.setState
  rw [if_neg (by simp [hsh.1])]
  have hfall : List.Forall₂ (fun (r s : List Nat) => r.length = s.length) b
      (p.board.take b.length) := by
    have htake : p.board.take b.length = p.board := by
      rw [hsh.1, ← hpsh.1]
      simp
    rw [htake]
    exact forall₂_len_of_shapes (by rw [hsh.1, hpsh.1]) hsh.2 hpsh.2
  have hps : (parseBoard (p.numR * p.numC) p.blank b p.board 0 0 [] none 0).isSome :=
    parseBoard_isSome b p.board 0 0 [] none 0 hti.2
      (fun t _ => List.not_mem_nil t) hti.1 hfall
  obtain ⟨out, hout⟩ := Option.isSome_iff_exists.mp hps
  obtain ⟨acc', mis'⟩ := out
  rw [hout]
  obtain ⟨-, -, -, -, -, hbin, -⟩ := parseBoard_some b p.board 0 0 [] none 0 hout
  dsimp only at hbin
  have hbmem : p.blank ∈ b.flatten := by
    rw [hblank]
    exact mem_flatten_of_lt hsh hti (by positivity)
  obtain ⟨ib, jb, row, -, -, -, hacc⟩ := hbin hbmem
  rw [hacc]
  simp

/-! ## Characterization of move -/

theorem cell_index_lt {r c i j : Nat} (hi : i < r) (hj : j < c) :
    i * c + j < r * c := by
  have h1 : (i + 1) * c ≤ r * c := Nat.mul_le_mul_right _ hi
  have h2 : (i + 1) * c = i * c + c := by ring
  omega

theorem getTile_isSome {b : Board} {r c : Nat} (hshape : BoardShape r c b)
    {i j : Nat} (hi : i < r) (hj : j < c) : (getTile b (i, j)).isSome := by
  rw [← flatten_get? hshape i j hi hj]
  have hlt : i * c + j < b.flatten.length := by
    rw [flatten_length hshape]
    exact cell_index_lt hi hj
  cases hx : b.flatten.get? (i * c + j) with
  | none =>
    exfalso
    rw [List.get?_eq_none] at hx
    omega
  | some v => rfl

/-- A successful `move` on a well-formed puzzle costs `1`, leaves the
dimensions and the blank index unchanged, and yields a well-formed puzzle
again (the incrementally adjusted misplaced counter still agrees with the
from-scratch count). -/
theorem move_sound {p : SlidingPuzzle} (hv : p.Valid) {dir : Int × Int}
    {p' : SlidingPuzzle} {cost : Nat} (h : p.move dir = some (p', cost)) :
    cost = 1 ∧ p'.numR = p.numR ∧ p'.numC = p.numC ∧ p'.blank = p.blank ∧
    p'.Valid := by
  obtain ⟨hblank, hR, hC, hsh, hti, hp1, hp2, hg, hm⟩ := hv
  unfold SlidingPuzzle.move at h
  by_cases hdir : dir ∉ [((-1 : Int), (0 : Int)), (0, -1), (0, 1), (1, 0)]
  · rw [if_pos hdir] at h
    exact absurd h (by simp)
  rw [if_neg hdir] at h
  push_neg at hdir
  simp only at h
  by_cases hrange : (p.pos.1 : Int) + dir.1 < 0 ∨ (p.numR : Int) ≤ (p.pos.1 : Int) + dir.1 ∨
      (p.pos.2 : Int) + dir.2 < 0 ∨ (p.numC : Int) ≤ (p.pos.2 : Int) + dir.2
  · rw [if_pos hrange] at h
    exact absurd h (by simp)
  rw [if_neg hrange] at h
  push_neg at hrange
  set nr := ((p.pos.1 : Int) + dir.1).toNat with hnr0
  set nc := ((p.pos.2 : Int) + dir.2).toNat with hnc0
  have hnr : nr < p.numR := by omega
  have hnc : nc < p.numC := by omega
  cases htile : getTile p.board (nr, nc) with
  | none => rw [htile] at h; exact absurd h (by simp)
  | some tile =>
    rw [htile] at h
    simp only [Option.some.injEq, Prod.mk.injEq] at h
    obtain ⟨rfl, rfl⟩ := h
    refine ⟨rfl, rfl, rfl, rfl, ?_⟩
    have hshape1 : BoardShape p.numR p.numC (setTile p.board p.pos tile) :=
      setTile_shape hsh hp1 p.pos.2 tile
    have hshape2 : BoardShape p.numR p.numC
        (setTile (setTile p.board p.pos tile) (nr, nc) p.blank) :=
      setTile_shape hshape1 hnr nc p.blank
    have hfold : p.board.flatten.get? (p.pos.1 * p.numC + p.pos.2) = some 0 := by
      rw [flatten_get? hsh p.pos.1 p.pos.2 hp1 hp2]
      show getTile p.board p.pos = some 0
      rw [hg, hblank]
    have hfnew : p.board.flatten.get? (nr * p.numC + nc) = some tile := by
      rw [flatten_get? hsh nr nc hnr hnc]
      exact htile
    have hd4 : dir = ((-1 : Int), (0 : Int)) ∨ dir = (0, -1) ∨ dir = (0, 1) ∨
        dir = (1, 0) := by simpa using hdir
    have hdne : dir.1 ≠ 0 ∨ dir.2 ≠ 0 := by
      rcases hd4 with rfl | rfl | rfl | rfl <;> simp
    have hposne : p.pos.1 ≠ nr ∨ p.pos.2 ≠ nc := by
      rcases hdne with h0 | h0
      · left; intro heq; exact h0 (by omega)
      · right; intro heq; exact h0 (by omega)
    have hne : p.pos.1 * p.numC + p.pos.2 ≠ nr * p.numC + nc := by
      intro he
      obtain ⟨e1, e2⟩ := cell_index_inj hp2 hnc he
      rcases hposne with h0 | h0
      · exact h0 e1
      · exact h0 e2
    have hb1 : (setTile p.board p.pos tile).flatten =
        p.board.flatten.set (p.pos.1 * p.numC + p.pos.2) tile :=
      flatten_set hsh p.pos.1 p.pos.2 tile hp1 hp2
    have hb2 : (setTile (setTile p.board p.pos tile) (nr, nc) p.blank).flatten =
        (p.board.flatten.set (p.pos.1 * p.numC + p.pos.2) tile).set
          (nr * p.numC + nc) p.blank := by
      rw [flatten_set hshape1 nr nc p.blank hnr hnc, hb1]
    have hfnew' : (p.board.flatten.set (p.pos.1 * p.numC + p.pos.2) tile).get?
        (nr * p.numC + nc) = some tile := by
      rw [List.get?_set_ne _ _ hne]
      exact hfnew
    have hperm : ((p.board.flatten.set (p.pos.1 * p.numC + p.pos.2) tile).set
        (nr * p.numC + nc) 0).Perm p.board.flatten :=
      set_set_perm hne hfold hfnew
    refine ⟨hblank, hR, hC, hshape2, ?_, hnr, hnc, ?_, ?_⟩
    · -- the new grid still carries each tile exactly once
      dsimp only
      constructor
      · rw [hb2, hblank]
        exact hperm.nodup_iff.mpr hti.1
      · intro u hu
        rw [hb2, hblank] at hu
        exact hti.2 u (hperm.subset hu)
    · -- the recorded position points at the blank tile
      dsimp only
      rw [← flatten_get? hshape2 nr nc hnr hnc, hb2]
      have hiNlt : nr * p.numC + nc <
          (p.board.flatten.set (p.pos.1 * p.numC + p.pos.2) tile).length := by
        rw [List.length_set, flatten_length hsh]
        exact cell_index_lt hnr hnc
      exact List.get?_set_eq_of_lt p.blank hiNlt
    · -- the incrementally adjusted misplaced counter is the recount
      dsimp only
      have eq1 := countMisplacedFrom_set p.board.flatten 0
        (p.pos.1 * p.numC + p.pos.2) tile 0 hfold
      have eq2 := countMisplacedFrom_set
        (p.board.flatten.set (p.pos.1 * p.numC + p.pos.2) tile) 0
        (nr * p.numC + nc) p.blank tile hfnew'
      simp only [Nat.zero_add] at eq1 eq2
      rw [hblank] at eq2 hb2
      have hc1 : (p.pos = ((0 : Nat), (0 : Nat))) ↔
          ((0 : Nat) = p.pos.1 * p.numC + p.pos.2) := by
        rw [Prod.ext_iff]
        constructor
        · rintro ⟨e1, e2⟩
          rw [e1, e2]
          simp
        · intro he
          have h2' : p.pos.2 = 0 := by omega
          have h1' : p.pos.1 * p.numC = 0 := by omega
          rcases Nat.mul_eq_zero.mp h1' with h0 | h0
          · exact ⟨h0, h2'⟩
          · omega
      have hc2 : (nr = 0 ∧ nc = 0) ↔ ((0 : Nat) = nr * p.numC + nc) := by
        constructor
        · rintro ⟨e1, e2⟩
          rw [e1, e2]
          simp
        · intro he
          have h2' : nc = 0 := by omega
          have h1' : nr * p.numC = 0 := by omega
          rcases Nat.mul_eq_zero.mp h1' with h0 | h0
          · exact ⟨h0, h2'⟩
          · omega
      rw [hm, hblank]
      simp only [countMisplaced, Nat.zero_div, Nat.zero_mod]
      rw [hb2]
      simp only [hc1, hc2]
      split_ifs at eq1 eq2 ⊢ <;> omega

/-- `move` succeeds on any of the four directions whose target cell is on the
board. -/
theorem move_isSome {p : SlidingPuzzle}
    (hsh : BoardShape p.numR p.numC p.board) {dir : Int × Int}
    (hdir : dir ∈ [((-1 : Int), (0 : Int)), (0, -1), (0, 1), (1, 0)])
    (h1 : 0 ≤ (p.pos.1 : Int) + dir.1) (h2 : (p.pos.1 : Int) + dir.1 < p.numR)
    (h3 : 0 ≤ (p.pos.2 : Int) + dir.2) (h4 : (p.pos.2 : Int) + dir.2 < p.numC) :
    (p.move dir).isSome := by
  unfold SlidingPuzzle.move
  rw [if_neg (not_not_intro hdir)]
  simp only
  rw [if_neg (by push_neg; exact ⟨h1, h2, h3, h4⟩)]
  obtain ⟨tl, htl⟩ := Option.isSome_iff_exists.mp
    (getTile_isSome hsh
      (show ((p.pos.1 : Int) + dir.1).toNat < p.numR by omega)
      (show ((p.pos.2 : Int) + dir.2).toNat < p.numC by omega))
  rw [htl]
  rfl

/-- `move` succeeds on every direction in `legalMoves`. -/
theorem move_isSome_of_legal {p : SlidingPuzzle} (hv : p.Valid) {dir : Int × Int}
    (hdir : dir ∈ p.legalMoves) : (p.move dir).isSome := by
  obtain ⟨hblank, hR, hC, hsh, hti, hp1, hp2, hg, hm⟩ := hv
  have hcases : (dir = ((-1 : Int), (0 : Int)) ∧ 0 < p.pos.1) ∨
      (dir = (1, 0) ∧ p.pos.1 < p.numR - 1) ∨
      (dir = (0, -1) ∧ 0 < p.pos.2) ∨
      (dir = (0, 1) ∧ p.pos.2 < p.numC - 1) := by
    unfold SlidingPuzzle.legalMoves at hdir
    by_cases c1 : 0 < p.pos.1 <;> by_cases c2 : p.pos.1 < p.numR - 1 <;>
      by_cases c3 : 0 < p.pos.2 <;> by_cases c4 : p.pos.2 < p.numC - 1 <;>
      simp [c1, c2, c3, c4] at hdir <;> tauto
  rcases hcases with ⟨rfl, hc⟩ | ⟨rfl, hc⟩ | ⟨rfl, hc⟩ | ⟨rfl, hc⟩ <;>
    exact move_isSome hsh (by simp) (by simp <;> omega) (by simp <;> omega)
      (by simp <;> omega) (by simp <;> omega)

/-! ## Characterization of getSuccessors -/

/-- The restore step inside the successor loop hands back the very same
puzzle: every entry of a successful `succLoop` either was in the accumulator
already or records a single `move` from the loop's puzzle, and the puzzle
the loop finishes with is the one it started with. -/
theorem succLoop_sound {state : Board} :
    ∀ (moves : List (Int × Int)) {p1 : SlidingPuzzle}, p1.Valid →
      p1.board = state →
      ∀ (acc : List (Board × (Int × Int) × Nat × Bool))
        {l : List (Board × (Int × Int) × Nat × Bool)} {pF : SlidingPuzzle},
        succLoop state p1 moves acc = some (l, pF) →
        pF = p1 ∧ ∀ e ∈ l, e ∈ acc ∨ ∃ p2 : SlidingPuzzle,
          p1.move e.2.1 = some (p2, e.2.2.1) ∧ e.1 = p2.board ∧ p2.Valid ∧
          e.2.2.2 = p2.isSolved := by
  intro moves
  induction moves with
  | nil =>
    intro p1 hv1 hb acc l pF h
    obtain ⟨rfl, rfl⟩ : acc = l ∧ p1 = pF := by simpa [succLoop] using h
    exact ⟨rfl, fun e he => Or.inl he⟩
  | cons a rest ih =>
    intro p1 hv1 hb acc l pF h
    rw [succLoop] at h
    cases hmv : p1.move a with
    | none => rw [hmv] at h; exact absurd h (by simp)
    | some pc =>
      obtain ⟨p2, cost⟩ := pc
      rw [hmv] at h
      simp only at h
      obtain ⟨hcost, hR2, hC2, -, hv2⟩ := move_sound hv1 hmv
      cases hset : p2.setState state with
      | none => rw [hset] at h; exact absurd h (by simp)
      | some p3 =>
        rw [hset] at h
        simp only at h
        obtain ⟨hR3, hC3, -, hb3, -, -, -, hv3⟩ := setState_some hv2 hset
        have hp31 : p3 = p1 :=
          valid_ext hv3 hv1 (by omega) (by omega) (by rw [hb3, hb])
        rw [hp31] at h
        obtain ⟨hpf, hent⟩ := ih hv1 hb _ h
        refine ⟨hpf, ?_⟩
        intro e he
        rcases hent e he with hacc | hrep
        · rcases List.mem_append.mp hacc with h0 | h0
          · exact Or.inl h0
          · refine Or.inr ?_
            obtain rfl : e = (p2.getState, a, cost, p2.isSolved) := by simpa using h0
            exact ⟨p2, by rw [hmv, hcost], rfl, hv2, rfl⟩
        · exact Or.inr hrep

/-- `succLoop` succeeds whenever all its pending directions are legal moves
of its (well-formed) puzzle. -/
theorem succLoop_isSome {state : Board} :
    ∀ (moves : List (Int × Int)) {p1 : SlidingPuzzle}, p1.Valid →
      p1.board = state → (∀ a ∈ moves, a ∈ p1.legalMoves) →
      ∀ (acc : List (Board × (Int × Int) × Nat × Bool)),
        (succLoop state p1 moves acc).isSome := by
  intro moves
  induction moves with
  | nil => intro p1 _ _ _ acc; simp [succLoop]
  | cons a rest ih =>
    intro p1 hv1 hb hleg acc
    rw [succLoop]
    obtain ⟨⟨p2, cost⟩, hmv⟩ := Option.isSome_iff_exists.mp
      (move_isSome_of_legal hv1 (hleg a (List.mem_cons_self a rest)))
    rw [hmv]
    simp only
    obtain ⟨hcost, hR2, hC2, -, hv2⟩ := move_sound hv1 hmv
    have hsh : BoardShape p1.numR p1.numC p1.board := hv1.2.2.2.1
    have hti : BoardTiles (p1.numR * p1.numC) p1.board := hv1.2.2.2.2.1
    have hset : (p2.setState state).isSome := by
      refine setState_isSome hv2 ?_ ?_
      · rw [hR2, hC2, ← hb]
        exact hsh
      · rw [hR2, hC2, ← hb]
        exact hti
    obtain ⟨p3, hp3⟩ := Option.isSome_iff_exists.mp hset
    rw [hp3]
    simp only
    obtain ⟨hR3, hC3, -, hb3, -, -, -, hv3⟩ := setState_some hv2 hp3
    have hp31 : p3 = p1 :=
      valid_ext hv3 hv1 (by omega) (by omega) (by rw [hb3, hb])
    rw [hp31]
    exact ih hv1 hb (fun x hx => hleg x (List.mem_cons_of_mem a hx)) _

/-- A successful `getSuccessors` call restores the puzzle exactly and every
returned entry records one `move` from the temporarily installed state. -/
theorem getSuccessors_ok {p : SlidingPuzzle} (hv : p.Valid) {b : Board}
    {l : List (Board × (Int × Int) × Nat × Bool)} {pF : SlidingPuzzle}
    (h : p.getSuccessors b = some (l, pF)) :
    pF = p ∧ ∀ e ∈ l, ∃ (q p2 : SlidingPuzzle),
      p.setState b = some q ∧ q.move e.2.1 = some (p2, e.2.2.1) ∧
      e.1 = p2.board ∧ p2.Valid ∧ e.2.2.2 = p2.isSolved := by
  unfold SlidingPuzzle.getSuccessors at h
  cases hset : p.setState b with
  | none => rw [hset] at h; exact absurd h (by simp)
  | some p1 =>
    rw [hset] at h
    simp only at h
    obtain ⟨hR1, hC1, -, hb1, -, -, -, hv1⟩ := setState_some hv hset
    cases hloop : succLoop b p1 p1.legalMoves [] with
    | none => rw [hloop] at h; exact absurd h (by simp)
    | some out =>
      obtain ⟨succ, pLast⟩ := out
      rw [hloop] at h
      simp only at h
      obtain ⟨hpl, hent⟩ := succLoop_sound p1.legalMoves hv1 hb1 [] hloop
      subst hpl
      cases hres : pLast.setState p.getState with
      | none => rw [hres] at h; exact absurd h (by simp)
      | some pFin =>
        rw [hres] at h
        simp only at h
        obtain ⟨rfl, rfl⟩ : succ = l ∧ pFin = pF := by simpa using h
        obtain ⟨hRF, hCF, -, hbF, -, -, -, hvF⟩ := setState_some hv1 hres
        have hpF : pFin = p :=
          valid_ext hvF hv (by omega) (by omega) (by rw [hbF]; rfl)
        refine ⟨hpF, ?_⟩
        intro e he
        rcases hent e he with h0 | ⟨p2, hmv, hb2, hv2, hgl⟩
        · exact absurd h0 (List.not_mem_nil e)
        · exact ⟨pLast, p2, rfl, hmv, hb2, hv2, hgl⟩

/-- `getSuccessors` succeeds on every grid of the right shape carrying each
tile exactly once. -/
theorem getSuccessors_isSome {p : SlidingPuzzle} (hv : p.Valid) {b : Board}
    (hsh : BoardShape p.numR p.numC b) (hti : BoardTiles (p.numR * p.numC) b) :
    (p.getSuccessors b).isSome := by
  unfold SlidingPuzzle.getSuccessors
  obtain ⟨p1, hset⟩ := Option.isSome_iff_exists.mp (setState_isSome hv hsh hti)
  rw [hset]
  simp only
  obtain ⟨hR1, hC1, -, hb1, -, -, -, hv1⟩ := setState_some hv hset
  obtain ⟨out, hloop⟩ := Option.isSome_iff_exists.mp
    (succLoop_isSome p1.legalMoves hv1 hb1 (fun a ha => ha) [])
  obtain ⟨succ, pLast⟩ := out
  rw [hloop]
  simp only
  obtain ⟨hpl, -⟩ := succLoop_sound p1.legalMoves hv1 hb1 [] hloop
  subst hpl
  have hres : (pLast.setState p.getState).isSome := by
    obtain ⟨-, -, -, hshp, htip, -, -, -, -⟩ := hv
    refine setState_isSome hv1 ?_ ?_
    · rw [hR1, hC1]
      exact hshp
    · rw [hR1, hC1]
      exact htip
  obtain ⟨pFin, hpfin⟩ := Option.isSome_iff_exists.mp hres
  rw [hpfin]
  rfl

/-- C10: on a well-formed puzzle, `getSuccessors` applied to any valid state
string (a grid of the puzzle's dimensions carrying each tile exactly once)
returns normally, and the puzzle object after the call answers `getState`,
`getPos` and `isSolved` exactly as before the call — the temporary mutation
to the argument state is fully undone. -/
theorem getSuccessors_frame (p : SlidingPuzzle) (hv : p.Valid) (s : Board)
    (hsh : BoardShape p.numR p.numC s) (hti : BoardTiles (p.numR * p.numC) s) :
    ∃ l pF, p.getSuccessors s = some (l, pF) ∧
      pF.getState = p.getState ∧ pF.getPos = p.getPos ∧
      pF.isSolved = p.isSolved := by
  obtain ⟨out, hout⟩ := Option.isSome_iff_exists.mp (getSuccessors_isSome hv hsh hti)
  obtain ⟨l, pF⟩ := out
  obtain ⟨hpF, -⟩ := getSuccessors_ok hv hout
  exact ⟨l, pF, hout, by rw [hpF], by rw [hpF], by rw [hpF]⟩

/-- A 2-by-2 puzzle scrambled by one legal move from the solved grid. -/
def puzzleEx : SlidingPuzzle := ⟨2, 2, [[1, 0], [2, 3]], (0, 1), 0, 2⟩

instance (r c : Nat) (b : Board) : Decidable (BoardShape r c b) := by
  unfold BoardShape
  infer_instance

instance (total : Nat) (b : Board) : Decidable (BoardTiles total b) := by
  unfold BoardTiles
  infer_instance

theorem getSuccessors_frame_witness :
    puzzleEx.Valid ∧ BoardShape puzzleEx.numR puzzleEx.numC [[0, 1], [2, 3]] ∧
    BoardTiles (puzzleEx.numR * puzzleEx.numC) [[0, 1], [2, 3]] ∧
    ∃ l pF, puzzleEx.getSuccessors [[0, 1], [2, 3]] = some (l, pF) ∧
      pF.getState = puzzleEx.getState ∧ pF.getPos = puzzleEx.getPos ∧
      pF.isSolved = puzzleEx.isSolved :=
  ⟨by decide, by decide, by decide,
    getSuccessors_frame puzzleEx (by decide) [[0, 1], [2, 3]] (by decide) (by decide)⟩

/-! ## Replaying a returned action sequence (claim C8) -/

/-- Replay a list of actions with a step function, failing as soon as one
step fails. -/
def replay (step : σ → α → Option σ) : σ → List α → Option σ
  | s, [] => some s
  | s, a :: rest =>
    match step s a with
    | none => none
    | some s' => replay step s' rest

theorem replay_append (step : σ → α → Option σ) :
    ∀ (p1 : List α) (s : σ) (a : α),
      replay step s (p1 ++ [a]) = (replay step s p1).bind fun u => step u a := by
  intro p1
  induction p1 with
  | nil =>
    intro s a
    cases hsa : step s a <;> simp [replay, hsa]
  | cons b rest ih =>
    intro s a
    rw [List.cons_append, replay]
    cases hsb : step s b with
    | none => simp [replay, hsb]
    | some s' => simp [replay, hsb, ih]

theorem bfsRun_replay [DecidableEq σ] {P : Problem σ α} {step : σ → α → Option σ}
    (hstep : ∀ (s : σ) (x : Succ σ α), x ∈ P.succs s →
      step s x.2.1 = some x.1 ∧ (x.2.2.2 = true → P.solvedFn x.1 = true)) :
    ∀ (fuel : Nat) (c : ListConfig σ α),
      (∀ nd ∈ c.fringe, replay step P.cur nd.path = some nd.state ∧
        (nd.goal = true → P.solvedFn nd.state = true)) →
      ∀ r, bfsRun P fuel c = some r → r.1.1 ≠ [] →
        ∃ u, replay step P.cur r.1.1 = some u ∧ P.solvedFn u = true := by
  intro fuel
  induction fuel with
  | zero => intro c hc r hr; exact absurd hr (by simp [bfsRun])
  | succ fuel ih =>
    intro c hc r hr hne
    obtain ⟨fringe, v, e, m, t⟩ := c
    rw [bfsRun] at hr
    cases fringe with
    | nil =>
      rw [bfsStep_nil] at hr
      obtain rfl := Option.some.inj hr
      exact absurd rfl hne
    | cons s rest =>
      rw [bfsStep_cons] at hr
      have hs := hc s (by simp)
      by_cases hg : s.goal
      · rw [if_pos hg] at hr
        obtain rfl := Option.some.inj hr
        exact ⟨s.state, hs.1, hs.2 hg⟩
      · rw [if_neg hg] at hr
        by_cases hm : s.state ∈ v
        · rw [if_pos hm] at hr
          exact ih _ (fun nd hnd => hc nd (by simp [hnd])) r hr hne
        · rw [if_neg hm] at hr
          refine ih _ ?_ r hr hne
          intro nd hnd
          rw [pushLoop_fst_eq] at hnd
          rcases List.mem_append.mp hnd with hnd | hnd
          · exact hc nd (by simp [hnd])
          · obtain ⟨x, hx, rfl⟩ := List.mem_map.mp hnd
            obtain ⟨hxs, -⟩ := List.mem_filter.mp hx
            obtain ⟨hstep1, hstep2⟩ := hstep s.state x hxs
            refine ⟨?_, fun hgx => hstep2 hgx⟩
            show replay step P.cur (s.path ++ [x.2.1]) = some x.1
            rw [replay_append, hs.1]
            simpa using hstep1

theorem dfsRun_replay [DecidableEq σ] {P : Problem σ α} {step : σ → α → Option σ}
    (hstep : ∀ (s : σ) (x : Succ σ α), x ∈ P.succs s →
      step s x.2.1 = some x.1 ∧ (x.2.2.2 = true → P.solvedFn x.1 = true)) :
    ∀ (fuel : Nat) (c : ListConfig σ α),
      (∀ nd ∈ c.fringe, replay step P.cur nd.path = some nd.state ∧
        (nd.goal = true → P.solvedFn nd.state = true)) →
      ∀ r, dfsRun P fuel c = some r → r.1.1 ≠ [] →
        ∃ u, replay step P.cur r.1.1 = some u ∧ P.solvedFn u = true := by
  intro fuel
  induction fuel with
  | zero => intro c hc r hr; exact absurd hr (by simp [dfsRun])
  | succ fuel ih =>
    intro c hc r hr hne
    obtain ⟨fringe, v, e, m, t⟩ := c
    rw [dfsRun] at hr
    rcases List.eq_nil_or_concat fringe with rfl | ⟨l, s, rfl⟩
    all_goals simp only [List.concat_eq_append] at hr hc
    · rw [dfsStep_nil] at hr
      obtain rfl := Option.some.inj hr
      exact absurd rfl hne
    · rw [dfsStep_concat] at hr
      have hs := hc s (by simp)
      by_cases hg : s.goal
      · rw [if_pos hg] at hr
        obtain rfl := Option.some.inj hr
        exact ⟨s.state, hs.1, hs.2 hg⟩
      · rw [if_neg hg] at hr
        by_cases hm : s.state ∈ v
        · rw [if_pos hm] at hr
          exact ih _ (fun nd hnd => hc nd (by simp [hnd])) r hr hne
        · rw [if_neg hm] at hr
          refine ih _ ?_ r hr hne
          intro nd hnd
          rw [pushLoop_fst_eq] at hnd
          rcases List.mem_append.mp hnd with hnd | hnd
          · exact hc nd (by simp [hnd])
          · obtain ⟨x, hx, rfl⟩ := List.mem_map.mp hnd
            obtain ⟨hxs, -⟩ := List.mem_filter.mp hx
            obtain ⟨hstep1, hstep2⟩ := hstep s.state x hxs
            refine ⟨?_, fun hgx => hstep2 hgx⟩
            show replay step P.cur (s.path ++ [x.2.1]) = some x.1
            rw [replay_append, hs.1]
            simpa using hstep1

theorem dlsRun_replay [DecidableEq σ] {P : Problem σ α} {maxDepth : Nat}
    {step : σ → α → Option σ}
    (hstep : ∀ (s : σ) (x : Succ σ α), x ∈ P.succs s →
      step s x.2.1 = some x.1 ∧ (x.2.2.2 = true → P.solvedFn x.1 = true)) :
    ∀ (fuel : Nat) (c : DlsConfig σ α),
      (∀ nd ∈ c.fringe, replay step P.cur nd.path = some nd.state ∧
        (nd.goal = true → P.solvedFn nd.state = true)) →
      ∀ r, dlsRun P maxDepth fuel c = some r → r.1.1 ≠ [] →
        ∃ u, replay step P.cur r.1.1 = some u ∧ P.solvedFn u = true := by
  intro fuel
  induction fuel with
  | zero => intro c hc r hr; exact absurd hr (by simp [dlsRun])
  | succ fuel ih =>
    intro c hc r hr hne
    obtain ⟨fringe, v, e, m, t⟩ := c
    rw [dlsRun] at hr
    rcases List.eq_nil_or_concat fringe with rfl | ⟨l, s, rfl⟩
    all_goals simp only [List.concat_eq_append] at hr hc
    · rw [dlsStep_nil] at hr
      obtain rfl := Option.some.inj hr
      exact absurd rfl hne
    · rw [dlsStep_concat] at hr
      have hs := hc s (by simp)
      by_cases hg : s.goal
      · rw [if_pos hg] at hr
        obtain rfl := Option.some.inj hr
        exact ⟨s.state, hs.1, hs.2 hg⟩
      · rw [if_neg hg] at hr
        by_cases hm : s.state ∉ v ∧ s.depth < maxDepth
        · rw [if_pos hm] at hr
          refine ih _ ?_ r hr hne
          intro nd hnd
          rw [dlsPushLoop_fst_eq] at hnd
          rcases List.mem_append.mp hnd with hnd | hnd
          · exact hc nd (by simp [hnd])
          · obtain ⟨x, hx, rfl⟩ := List.mem_map.mp hnd
            obtain ⟨hxs, -⟩ := List.mem_filter.mp hx
            obtain ⟨hstep1, hstep2⟩ := hstep s.state x hxs
            refine ⟨?_, fun hgx => hstep2 hgx⟩
            show replay step P.cur (s.path ++ [x.2.1]) = some x.1
            rw [replay_append, hs.1]
            simpa using hstep1
        · rw [if_neg hm] at hr
          exact ih _ (fun nd hnd => hc nd (by simp [hnd])) r hr hne

theorem aStarRun_replay [DecidableEq σ] {P : Problem σ α} {H : σ → Nat}
    {step : σ → α → Option σ}
    (hstep : ∀ (s : σ) (x : Succ σ α), x ∈ P.succs s →
      step s x.2.1 = some x.1 ∧ (x.2.2.2 = true → P.solvedFn x.1 = true)) :
    ∀ (fuel : Nat) (c : AstarConfig σ α),
      (∀ pr ∈ c.fringe.heap, replay step P.cur pr.2.path = some pr.2.state ∧
        (pr.2.goal = true → P.solvedFn pr.2.state = true)) →
      ∀ r, aStarRun P H fuel c = some r → r.1.1 ≠ [] →
        ∃ u, replay step P.cur r.1.1 = some u ∧ P.solvedFn u = true := by
  intro fuel
  induction fuel with
  | zero => intro c hc r hr; exact absurd hr (by simp [aStarRun])
  | succ fuel ih =>
    intro c hc r hr hne
    rw [aStarRun] at hr
    cases hp : c.fringe.pop with
    | none =>
      rw [aStarStep_pop_none P H c hp] at hr
      obtain rfl := Option.some.inj hr
      exact absurd rfl hne
    | some pr =>
      obtain ⟨⟨s, score⟩, q'⟩ := pr
      have hpq := pop_eq_some_heappop hp
      obtain ⟨hmem, -, hperm⟩ := heappop_min hpq
      have hq' : ∀ x ∈ q'.heap, x ∈ c.fringe.heap := fun x hx =>
        hperm.symm.subset (List.mem_cons_of_mem _ hx)
      rw [aStarStep_pop_some P H c s score q' hp] at hr
      have hs := hc (score, s) hmem
      by_cases hg : s.goal
      · rw [if_pos hg] at hr
        obtain rfl := Option.some.inj hr
        exact ⟨s.state, hs.1, hs.2 hg⟩
      · rw [if_neg hg] at hr
        by_cases hm : s.state ∈ c.visited
        · rw [if_pos hm] at hr
          exact ih _ (fun x hx => hc x (hq' x hx)) r hr hne
        · rw [if_neg hm] at hr
          refine ih _ ?_ r hr hne
          intro x hx
          simp only [aPushLoop_heap_eq] at hx
          rcases List.mem_append.mp hx with hx | hx
          · exact hc x (hq' x hx)
          · obtain ⟨y, hy, rfl⟩ := List.mem_map.mp hx
            obtain ⟨hys, -⟩ := List.mem_filter.mp hy
            obtain ⟨hstep1, hstep2⟩ := hstep s.state y hys
            refine ⟨?_, fun hgy => hstep2 hgy⟩
            show replay step P.cur (s.path ++ [y.2.1]) = some y.1
            rw [replay_append, hs.1]
            simpa using hstep1

theorem depthLimitedSearch_replay [DecidableEq σ] {P : Problem σ α}
    {step : σ → α → Option σ}
    (hstep : ∀ (s : σ) (x : Succ σ α), x ∈ P.succs s →
      step s x.2.1 = some x.1 ∧ (x.2.2.2 = true → P.solvedFn x.1 = true))
    (maxDepth fuel : Nat) (reset : Bool) (m0 t0 : Nat) :
    ∀ r, depthLimitedSearch P maxDepth fuel reset m0 t0 = some r → r.1.1 ≠ [] →
      ∃ u, replay step P.cur r.1.1 = some u ∧ P.solvedFn u = true := by
  intro r hr hne
  refine dlsRun_replay hstep fuel _ ?_ r hr hne
  intro nd hnd
  simp only [dlsInit, List.mem_singleton] at hnd
  subst hnd
  exact ⟨rfl, fun hgl => hgl⟩

theorem idLoop_replay [DecidableEq σ] {P : Problem σ α} {step : σ → α → Option σ}
    (hstep : ∀ (s : σ) (x : Succ σ α), x ∈ P.succs s →
      step s x.2.1 = some x.1 ∧ (x.2.2.2 = true → P.solvedFn x.1 = true))
    (fuel : Nat) :
    ∀ (dl depth acc m t : Nat) (r : SearchOutput α),
      idLoop P P.getState fuel dl depth acc m t = some r → r.1.1 ≠ [] →
      ∃ u, replay step P.cur r.1.1 = some u ∧ P.solvedFn u = true := by
  intro dl
  induction dl with
  | zero =>
    intro depth acc m t r hr hne
    obtain rfl := Option.some.inj hr
    exact absurd rfl hne
  | succ dl ih =>
    intro depth acc m t r hr hne
    rw [idLoop, setState_getState] at hr
    cases hdls : depthLimitedSearch P depth fuel false m t with
    | none => rw [hdls] at hr; exact absurd hr (by simp)
    | some rr =>
      obtain ⟨⟨path, cost, expd⟩, m', t'⟩ := rr
      rw [hdls] at hr
      simp only at hr
      by_cases hlen : path.length > 0
      · rw [if_pos hlen] at hr
        obtain rfl := Option.some.inj hr
        have := depthLimitedSearch_replay hstep depth fuel false m t
          ((path, cost, expd), m', t') hdls
          (by simpa using List.ne_nil_of_length_pos hlen)
        simpa using this
      · rw [if_neg hlen] at hr
        exact ih (depth + 1) (acc + expd) m' t' r hr hne

/-- The sliding puzzle wired up as the engine's `Problem`, as the driver
`uninformed_search.py` does by passing the puzzle object itself: the state
key is the (serialized) grid, the goal test checks that no tile of the
current grid is misplaced, and successors come from the puzzle's
`getSuccessors` (the empty list standing for the states on which that method
raises, which a search starting from a well-formed puzzle never queries). -/
def puzzleProblem (p : SlidingPuzzle) : Problem Board (Int × Int) where
  cur := p.getState
  solvedFn := fun b => countMisplaced b == 0
  succs := fun b =>
    match p.getSuccessors b with
    | none => []
    | some (l, _) => l

/-- One engine step at the grid level with the puzzle's own move semantics:
install the grid, perform the move, read off the resulting grid. -/
def pStep (p : SlidingPuzzle) (b : Board) (a : Int × Int) : Option Board :=
  (p.setState b).bind fun q => (q.move a).map fun z => z.1.board

/-- Apply a list of actions to a puzzle with `move`, in order, starting from
the given puzzle. -/
def replayMoves : SlidingPuzzle → List (Int × Int) → Option SlidingPuzzle
  | q, [] => some q
  | q, a :: rest =>
    match q.move a with
    | none => none
    | some (q', _) => replayMoves q' rest

theorem puzzleProblem_step {p : SlidingPuzzle} (hv : p.Valid) :
    ∀ (s : Board) (x : Succ Board (Int × Int)), x ∈ (puzzleProblem p).succs s →
      pStep p s x.2.1 = some x.1 ∧
      (x.2.2.2 = true → (puzzleProblem p).solvedFn x.1 = true) := by
  intro s x hx
  simp only [puzzleProblem] at hx
  cases hgs : p.getSuccessors s with
  | none => rw [hgs] at hx; exact absurd hx (List.not_mem_nil x)
  | some out =>
    obtain ⟨l, pF⟩ := out
    rw [hgs] at hx
    simp only at hx
    obtain ⟨-, hent⟩ := getSuccessors_ok hv hgs
    obtain ⟨q, p2, hset, hmv, hb2, hv2, hgl⟩ := hent x hx
    constructor
    · show ((p.setState s).bind fun q => (q.move x.2.1).map fun z => z.1.board) =
        some x.1
      rw [hset]
      simp [hmv, hb2]
    · intro hgt
      show (countMisplaced x.1 == 0) = true
      rw [hb2]
      have hsolved : p2.isSolved = true := hgl.symm.trans hgt
      unfold SlidingPuzzle.isSolved at hsolved
      have h0 : p2.numMisplaced = 0 := by simpa using hsolved
      have hmis : p2.numMisplaced = ((countMisplaced p2.board : Nat) : Int) :=
        hv2.2.2.2.2.2.2.2.2
      rw [hmis] at h0
      have hcm : countMisplaced p2.board = 0 := by exact_mod_cast h0
      simp [hcm]

theorem replay_lift {p : SlidingPuzzle} (hv : p.Valid) :
    ∀ (path : List (Int × Int)) (q : SlidingPuzzle), q.Valid →
      q.numR = p.numR → q.numC = p.numC →
      ∀ bF, replay (pStep p) q.board path = some bF →
        ∃ qF, replayMoves q path = some qF ∧ qF.Valid ∧ qF.board = bF := by
  intro path
  induction path with
  | nil =>
    intro q hq hR hC bF h
    obtain rfl : q.board = bF := by simpa [replay] using h
    exact ⟨q, rfl, hq, rfl⟩
  | cons a rest ih =>
    intro q hq hR hC bF h
    rw [replay] at h
    cases hstp : pStep p q.board a with
    | none => rw [hstp] at h; exact absurd h (by simp)
    | some b' =>
      rw [hstp] at h
      simp only at h
      unfold pStep at hstp
      cases hset : p.setState q.board with
      | none => rw [hset] at hstp; exact absurd hstp (by simp)
      | some pq =>
        rw [hset] at hstp
        simp only [Option.some_bind] at hstp
        cases hmv : pq.move a with
        | none => rw [hmv] at hstp; exact absurd hstp (by simp)
        | some z =>
          obtain ⟨p2, c2⟩ := z
          rw [hmv] at hstp
          simp only [Option.map_some'] at hstp
          obtain rfl : p2.board = b' := by simpa using hstp
          obtain ⟨hR1, hC1, -, hb1, -, -, -, hvq⟩ := setState_some hv hset
          have hqeq : q = pq := valid_ext hq hvq (by omega) (by omega) (by rw [hb1])
          obtain ⟨-, hR2, hC2, -, hv2⟩ := move_sound hvq hmv
          obtain ⟨qF, hrep, hvF, hbF⟩ := ih p2 hv2 (by omega) (by omega) bF h
          refine ⟨qF, ?_, hvF, hbF⟩
          rw [replayMoves, hqeq, hmv]
          exact hrep

/-- C8: on a well-formed sliding puzzle wired up as the engine's problem,
whenever any of the five entry points completes and returns a non-empty
action sequence, replaying that sequence in order with `SlidingPuzzle.move`,
starting from the original start state, succeeds and reaches a puzzle for
which `isSolved` returns true. -/
theorem sliding_puzzle_replay_round_trip {p : SlidingPuzzle} (hv : p.Valid)
    (fuel maxDepth : Nat) (H : Board → Nat) (r : SearchOutput (Int × Int))
    (hcall : breadthSearch (puzzleProblem p) fuel = some r ∨
      depthSearch (puzzleProblem p) fuel = some r ∨
      depthLimitedSearch (puzzleProblem p) maxDepth fuel true 0 0 = some r ∨
      iterativeDeepening (puzzleProblem p) maxDepth fuel = some r ∨
      aStarSearch (puzzleProblem p) H fuel = some r)
    (hne : r.1.1 ≠ []) :
    ∃ q, replayMoves p r.1.1 = some q ∧ q.isSolved = true := by
  have hstep := puzzleProblem_step hv
  have hseed : ∀ nd ∈ (listInit (puzzleProblem p)).fringe,
      replay (pStep p) (puzzleProblem p).cur nd.path = some nd.state ∧
      (nd.goal = true → (puzzleProblem p).solvedFn nd.state = true) := by
    intro nd hnd
    simp only [listInit, List.mem_singleton] at hnd
    subst hnd
    exact ⟨rfl, fun hgl => hgl⟩
  have hboard : ∃ u, replay (pStep p) (puzzleProblem p).cur r.1.1 = some u ∧
      (puzzleProblem p).solvedFn u = true := by
    rcases hcall with hc | hc | hc | hc | hc
    · exact bfsRun_replay hstep fuel (listInit (puzzleProblem p)) hseed r hc hne
    · exact dfsRun_replay hstep fuel (listInit (puzzleProblem p)) hseed r hc hne
    · exact depthLimitedSearch_replay hstep maxDepth fuel true 0 0 r hc hne
    · exact idLoop_replay hstep fuel maxDepth 1 0 0 0 r hc hne
    · refine aStarRun_replay hstep fuel (aStarInit (puzzleProblem p) H) ?_ r hc hne
      intro pr hpr
      simp only [aStarInit, PriorityQueue.push, PriorityQueue.empty, heappush,
        List.nil_append, List.mem_singleton] at hpr
      subst hpr
      exact ⟨rfl, fun hgl => hgl⟩
  obtain ⟨u, hrep, hsol⟩ := hboard
  obtain ⟨qF, hrm, hvF, hbF⟩ := replay_lift hv r.1.1 p hv rfl rfl u hrep
  refine ⟨qF, hrm, ?_⟩
  have hcm : countMisplaced u = 0 := by
    have hb : (countMisplaced u == 0) = true := hsol
    simpa using hb
  have hmis : qF.numMisplaced = ((countMisplaced qF.board : Nat) : Int) :=
    hvF.2.2.2.2.2.2.2.2
  unfold SlidingPuzzle.isSolved
  rw [hmis, hbF, hcm]
  decide

theorem sliding_puzzle_replay_round_trip_witness :
    puzzleEx.Valid ∧
    breadthSearch (puzzleProblem puzzleEx) 9 =
      some (([((0 : Int), (-1 : Int))], ((1 : Nat) : ℕ∞), 2), 2, 2) ∧
    ([((0 : Int), (-1 : Int))] : List (Int × Int)) ≠ [] ∧
    ∃ q, replayMoves puzzleEx [((0 : Int), (-1 : Int))] = some q ∧
      q.isSolved = true :=
  ⟨by decide, by decide, by decide,
    sliding_puzzle_replay_round_trip (by decide) 9 0 (fun _ => 0)
      (([((0 : Int), (-1 : Int))], ((1 : Nat) : ℕ∞), 2), 2, 2)
      (Or.inl (by decide)) (by decide)⟩

end UniformedSearch
